import Mathlib

/-!
Shallow embedding of the clustering engine of the AssociationChart
repository (src/chart.js `buildComponents` and friends) and of the
weight-editor save path (src/editor.js), together with proofs of the
behavioural properties claimed for them.

Conventions of the embedding:
* node and cluster ids are `String`, link weights are `ℚ` (the source works
  with JS numbers; all claimed properties are about exact arithmetic);
* JS `Set`s are represented by lists together with `Nodup`/membership facts;
* the stack-driven DFS of the source is written with explicit fuel so that
  every definition is executable by the kernel.
-/

namespace AssocChart

/-- A node of the association graph: `id`, display `label`, and the static
`baseGroup` category assigned once at ingestion (chart.js node objects). -/
structure Node where
  id : String
  label : String
  baseGroup : String
deriving DecidableEq, Repr

/-- A weighted link between two node ids (chart.js link objects
`{source, target, w}`). -/
structure Link where
  source : String
  target : String
  w : ℚ
deriving DecidableEq, Repr

/-- The fixed group list iterated by `buildComponents` (chart.js `GROUPS`). -/
def GROUPS : List String :=
  ["Food", "Health", "Emotion", "Play", "Safety", "Learning", "Body",
   "Routine", "Social", "Rest"]

/-- A connected-component record pushed by `buildComponents`:
`{id, base, ids}`; the member set is kept as the discovery-ordered list. -/
structure Comp where
  id : String
  base : String
  ids : List String
deriving DecidableEq, Repr

/-- A visible cluster as returned by `buildComponents` after aggregation:
the component enriched with its aggregate `value` and sorted member
`items`. -/
structure Cluster where
  id : String
  base : String
  ids : List String
  value : ℚ
  items : List String
deriving DecidableEq, Repr

/-- The symmetric adjacency relation built from the per-group filtered link
list (chart.js: `adj.get(source).add(target); adj.get(target).add(source)`). -/
def adjRel (gLinks : List Link) (a b : String) : Bool :=
  gLinks.any (fun l => (l.source == a && l.target == b) || (l.source == b && l.target == a))

/-- One DFS of the source (chart.js inner `while (stack.length)` loop), with
explicit fuel.  `seen` is the group-wide visited set, `collect` the current
component; both are extended by the newly seen neighbours of the popped
element, exactly as in the source.  Neighbours are enumerated by filtering
the group's node list `univ`; the adjacency sets of the source only ever
contain group members, so this enumerates the same set. -/
def dfsAux (adj : String → String → Bool) (univ : List String) :
    Nat → List String → List String → List String → List String × List String
  | 0, _, seen, collect => (seen, collect)
  | _ + 1, [], seen, collect => (seen, collect)
  | fuel + 1, cur :: stack, seen, collect =>
    let newN := univ.filter (fun y => adj cur y && !seen.contains y)
    dfsAux adj univ fuel (newN ++ stack) (seen ++ newN) (collect ++ newN)

/-- Fuel bound used for each DFS run: each node enters the stack at most
once, so `2 * |univ| + 1` steps always suffice. -/
def dfsFuel (univ : List String) : Nat := 2 * univ.length + 1

/-- The outer component loop of `buildComponents` (chart.js
`for (const id of gNodes)`): skip ids already seen, otherwise run one DFS
rooted at the id; components are produced in discovery order. -/
def groupComps (adj : String → String → Bool) (univ : List String) :
    List String → List String → List (List String)
  | [], _ => []
  | id :: rest, seen =>
    if seen.contains id then groupComps adj univ rest seen
    else
      let r := dfsAux adj univ (dfsFuel univ) [id] (seen ++ [id]) [id]
      r.2 :: groupComps adj univ rest r.1

/-- The character of a decimal digit. -/
def digitChar (d : Nat) : Char := Char.ofNat (48 + d % 10)

/-- Little-endian decimal digits of a positive number, fuel-driven. -/
def digitsAux : Nat → Nat → List Char
  | 0, _ => []
  | _, 0 => []
  | fuel + 1, n + 1 => digitChar ((n + 1) % 10) :: digitsAux fuel ((n + 1) / 10)

/-- Decimal rendering of a natural number (the embedding of the JS
number-to-string conversion used in component names). -/
def natRepr (n : Nat) : String :=
  if n = 0 then "0" else String.mk (digitsAux n n).reverse

/-- Naming of the discovered components of one group (chart.js
`collect.size === gNodes.length ? g : g • ++idx`): a component spanning the
whole group keeps the bare group name, any other component takes the next
counter value, counting from 1. -/
def nameComps (g : String) (total : Nat) : List (List String) → Nat → List Comp
  | [], _ => []
  | c :: cs, idx =>
    if c.length = total then ⟨g, g, c⟩ :: nameComps g total cs idx
    else ⟨g ++ " • " ++ natRepr (idx + 1), g, c⟩ :: nameComps g total cs (idx + 1)

/-- The ids of the nodes of one group (chart.js `gNodes`). -/
def gNodesOf (nodes : List Node) (g : String) : List String :=
  (nodes.filter (fun n => n.baseGroup == g)).map (·.id)

/-- The membership links of one group at a threshold (chart.js `gLinks`):
both endpoints in the group and weight at least the threshold. -/
def gLinksOf (nodes : List Node) (links : List Link) (th : ℚ) (g : String) :
    List Link :=
  links.filter
    (fun l => (gNodesOf nodes g).contains l.source &&
      (gNodesOf nodes g).contains l.target && decide (th ≤ l.w))

/-- All components of one group at a threshold, in discovery order, with
their names. -/
def groupClusters (nodes : List Node) (links : List Link) (th : ℚ) (g : String) :
    List Comp :=
  nameComps g (gNodesOf nodes g).length
    (groupComps (adjRel (gLinksOf nodes links th g)) (gNodesOf nodes g)
      (gNodesOf nodes g) []) 0

/-- The component list of `buildComponents` before aggregation, in group
order then discovery order (an empty group contributes no components,
matching the `continue` of the source). -/
def buildComps (nodes : List Node) (links : List Link) (th : ℚ) : List Comp :=
  GROUPS.flatMap (groupClusters nodes links th)

/-- The id of the (first) component containing a node id, if any (chart.js
`compOf`). -/
def compOf (comps : List Comp) (nid : String) : Option String :=
  (comps.find? (fun c => c.ids.contains nid)).map (·.id)

/-- Pointwise update of the aggregate-value map (chart.js `value.set`). -/
def upd (f : String → ℚ) (k : String) (v : ℚ) : String → ℚ :=
  fun x => if x = k then v else f x

/-- Processing of one link in the aggregation pass (chart.js aggregation
loop): skip if either endpoint is unassigned, add the full weight when both
endpoints share a component, otherwise add half to each side. -/
def accStep (comps : List Comp) (value : String → ℚ) (l : Link) : String → ℚ :=
  match compOf comps l.source, compOf comps l.target with
  | some ca, some cb =>
    if ca = cb then upd value ca (value ca + l.w)
    else
      let v1 := upd value ca (value ca + l.w / 2)
      upd v1 cb (v1 cb + l.w / 2)
  | _, _ => value

/-- The aggregate-value map after the full pass over all links (the pass
ranges over the complete link list, with no threshold test). -/
def accValues (comps : List Comp) (links : List Link) : String → ℚ :=
  links.foldl (accStep comps) (fun _ => 0)

/-- Lexicographic comparison of character lists by code point (the order
used by the JS default string sort, restricted to the characters that can
occur here). -/
def lexLe : List Char → List Char → Bool
  | [], _ => true
  | _ :: _, [] => false
  | a :: as, b :: bs =>
    if a.toNat < b.toNat then true
    else if b.toNat < a.toNat then false
    else lexLe as bs

/-- Stable insertion into a sorted list of labels. -/
def insertLe (x : String) : List String → List String
  | [] => [x]
  | y :: ys => if lexLe x.data y.data then x :: y :: ys else y :: insertLe x ys

/-- Sorted member labels of a component (chart.js `items`): the labels of
the member ids, sorted ascending as by the JS default stable sort. -/
def itemsOf (nodes : List Node) (ids : List String) : List String :=
  (ids.map (fun i => (((nodes.find? (fun n => n.id == i)).map (·.label)).getD ""))).foldr
    insertLe []

/-- A component together with its aggregate value and sorted items. -/
def toCluster (nodes : List Node) (links : List Link) (comps : List Comp)
    (c : Comp) : Cluster :=
  ⟨c.id, c.base, c.ids, accValues comps links c.id, itemsOf nodes c.ids⟩

/-- The clusterer: `buildComponents` of chart.js.  Components are built per
group at the threshold, aggregate weights are accumulated over all links,
and only clusters with strictly positive value are returned. -/
def buildComponents (nodes : List Node) (links : List Link) (th : ℚ) :
    List Cluster :=
  let comps := buildComps nodes links th
  (comps.map (toCluster nodes links comps)).filter (fun c => decide (0 < c.value))

/-- Per-link contribution to the aggregate weight of the cluster named
`cid`, as the specification words it: the full weight if both endpoints map
to that cluster, half if an endpoint maps to it while the other endpoint
maps to a different cluster, nothing otherwise. -/
def contrib (comps : List Comp) (cid : String) (l : Link) : ℚ :=
  match compOf comps l.source, compOf comps l.target with
  | some ca, some cb =>
    if ca = cb then (if ca = cid then l.w else 0)
    else (if ca = cid then l.w / 2 else 0) + (if cb = cid then l.w / 2 else 0)
  | _, _ => 0

/-- Both endpoints of a link map to some component. -/
def bothMapped (comps : List Comp) (l : Link) : Bool :=
  (compOf comps l.source).isSome && (compOf comps l.target).isSome

/-- One step of connectivity: an adjacency edge whose endpoint lies in the
group's node list. -/
def step (adj : String → String → Bool) (univ : List String) (a b : String) :
    Prop :=
  adj a b = true ∧ b ∈ univ

/-- Reachability in the group graph: the reflexive-transitive closure of
`step`.  The DFS of the source collects exactly the nodes reachable from
its root. -/
def Reach (adj : String → String → Bool) (univ : List String) :
    String → String → Prop :=
  Relation.ReflTransGen (step adj univ)

/-- Value of a little-endian decimal digit string (used to invert
`digitsAux`). -/
def digitsVal : List Char → Nat
  | [] => 0
  | c :: cs => (c.toNat - 48) + 10 * digitsVal cs

/-! ### Editor data model (src/editor.js save path) -/

/-- A link record of the editor/viewer data document
(`window.data.links`). -/
structure DLink where
  id : String
  source : String
  target : String
  weight : ℚ
deriving DecidableEq, Repr

/-- A node record of the editor/viewer data document. -/
structure DNode where
  id : String
  label : String
deriving DecidableEq, Repr

/-- The shared mutable document `window.data`. -/
structure DataState where
  dnodes : List DNode
  dlinks : List DLink
deriving DecidableEq, Repr

/-- editor.js save-handler matching: a link is patched when its `id` equals
the association id or when its `source->target` combo key does. -/
def matchesAssoc (l : DLink) (assocId : String) : Bool :=
  l.id == assocId || (l.source ++ "->" ++ l.target) == assocId

/-- The weight-patching loop of the save handler: every matching link has
its `weight` field replaced, all other fields and links are kept. -/
def saveWeight (links : List DLink) (assocId : String) (v : ℚ) : List DLink :=
  links.map (fun l => if matchesAssoc l assocId then { l with weight := v } else l)

/-- Outcome of one run of the editor.js save handler. -/
structure SaveResult where
  state : DataState
  downloaded : Bool
  callbackVal : Option ℚ
  popoverOpen : Bool
deriving DecidableEq, Repr

/-- editor.js save handler: `parsed` is the result of `parseFloat` on the
input field (`none` models NaN).  On NaN the popover is closed and nothing
else happens; otherwise the matching links are patched, the document is
downloaded, the completion callback receives the new value (which triggers
a re-render at the current threshold), and the popover closes. -/
def saveHandler (d : DataState) (assocId : String) (parsed : Option ℚ) :
    SaveResult :=
  match parsed with
  | none => ⟨d, false, none, false⟩
  | some v => ⟨⟨d.dnodes, saveWeight d.dlinks assocId v⟩, true, some v, false⟩

/-! ### Concrete inputs for the spec's scenarios -/

/-- Scenario A nodes: `a`, `b`, `c`, all in one group. -/
def exNodesA : List Node :=
  [⟨"a", "a", "Food"⟩, ⟨"b", "b", "Food"⟩, ⟨"c", "c", "Food"⟩]

/-- Scenario A links: `(a,b,0.8)` and `(b,c,0.3)`. -/
def exLinksA : List Link := [⟨"a", "b", 0.8⟩, ⟨"b", "c", 0.3⟩]

/-- The components of Scenario A at threshold `0.5`. -/
def exCompsA : List Comp :=
  [⟨"Food • 1", "Food", ["a", "b"]⟩, ⟨"Food • 2", "Food", ["c"]⟩]

/-- Scenario C nodes: `a`, `b`, `c`, `d`, all in one group. -/
def exNodesC : List Node :=
  [⟨"a", "a", "Food"⟩, ⟨"b", "b", "Food"⟩, ⟨"c", "c", "Food"⟩, ⟨"d", "d", "Food"⟩]

/-- Scenario C links: `(a,b,0.9)`, `(c,d,0.9)` and the below-threshold
cross edge `(b,c,0.1)`. -/
def exLinksC : List Link := [⟨"a", "b", 0.9⟩, ⟨"c", "d", 0.9⟩, ⟨"b", "c", 0.1⟩]

/-- The components of Scenario C at threshold `0.5`. -/
def exCompsC : List Comp :=
  [⟨"Food • 1", "Food", ["a", "b"]⟩, ⟨"Food • 2", "Food", ["c", "d"]⟩]

/-- An editor document in which the association id "a->b" identifies the
first link by its stable id and the second link by its combo key. -/
def exDLinks : List DLink :=
  [⟨"a->b", "x", "y", 1/2⟩, ⟨"l2", "a", "b", 7/10⟩]

/-- The editor document holding `exDLinks`. -/
def exDState : DataState := ⟨[⟨"a", "a"⟩], exDLinks⟩

/-! ## Basic helper lemmas -/

theorem string_beq_eq (a b : String) : (a == b) = decide (a = b) := by
  by_cases h : a = b <;> simp [h]

theorem mem_of_contains {l : List String} {a : String}
    (h : l.contains a = true) : a ∈ l := by
  simpa using h

theorem contains_of_mem {l : List String} {a : String}
    (h : a ∈ l) : l.contains a = true := by
  simpa using h

theorem not_contains_of_not_mem {l : List String} {a : String}
    (h : a ∉ l) : l.contains a = false := by
  simpa using h

/-! ## DFS lemmas -/

theorem dfsAux_delta (adj : String → String → Bool) (univ : List String) :
    ∀ (fuel : Nat) (stack seen collect : List String),
      ∃ d, dfsAux adj univ fuel stack seen collect = (seen ++ d, collect ++ d) := by
  intro fuel
  induction fuel with
  | zero =>
    intro stack seen collect
    exact ⟨[], by simp [dfsAux]⟩
  | succ n ih =>
    intro stack seen collect
    cases stack with
    | nil => exact ⟨[], by simp [dfsAux]⟩
    | cons cur rest =>
      obtain ⟨d, hd⟩ := ih ((univ.filter (fun y => adj cur y && !seen.contains y)) ++ rest)
        (seen ++ univ.filter (fun y => adj cur y && !seen.contains y))
        (collect ++ univ.filter (fun y => adj cur y && !seen.contains y))
      refine ⟨univ.filter (fun y => adj cur y && !seen.contains y) ++ d, ?_⟩
      have hstep : dfsAux adj univ (n + 1) (cur :: rest) seen collect
          = dfsAux adj univ n ((univ.filter (fun y => adj cur y && !seen.contains y)) ++ rest)
            (seen ++ univ.filter (fun y => adj cur y && !seen.contains y))
            (collect ++ univ.filter (fun y => adj cur y && !seen.contains y)) := rfl
      rw [hstep, hd, List.append_assoc, List.append_assoc]

theorem dfsAux_sound (adj : String → String → Bool) (univ : List String)
    (r : String) :
    ∀ (fuel : Nat) (stack seen collect : List String),
      (∀ x ∈ stack, Reach adj univ r x) →
      (∀ x ∈ collect, Reach adj univ r x) →
      ∀ x ∈ (dfsAux adj univ fuel stack seen collect).2, Reach adj univ r x := by
  intro fuel
  induction fuel with
  | zero =>
    intro stack seen collect _ hc x hx
    simpa [dfsAux] using hc x (by simpa [dfsAux] using hx)
  | succ n ih =>
    intro stack seen collect hs hc
    cases stack with
    | nil =>
      intro x hx
      exact hc x (by simpa [dfsAux] using hx)
    | cons cur rest =>
      have hcurR : Reach adj univ r cur := hs cur (by simp)
      have hNew : ∀ x ∈ univ.filter (fun y => adj cur y && !seen.contains y),
          Reach adj univ r x := by
        intro x hx
        rw [List.mem_filter] at hx
        obtain ⟨hxu, hcond⟩ := hx
        simp only [Bool.and_eq_true] at hcond
        exact Relation.ReflTransGen.tail hcurR ⟨hcond.1, hxu⟩
      have hstep : dfsAux adj univ (n + 1) (cur :: rest) seen collect
          = dfsAux adj univ n ((univ.filter (fun y => adj cur y && !seen.contains y)) ++ rest)
            (seen ++ univ.filter (fun y => adj cur y && !seen.contains y))
            (collect ++ univ.filter (fun y => adj cur y && !seen.contains y)) := rfl
      rw [hstep]
      refine ih _ _ _ ?_ ?_
      · intro x hx
        rcases List.mem_append.mp hx with h | h
        · exact hNew x h
        · exact hs x (List.mem_cons_of_mem _ h)
      · intro x hx
        rcases List.mem_append.mp hx with h | h
        · exact hc x h
        · exact hNew x h

theorem dfsAux_fresh (adj : String → String → Bool) (univ : List String) :
    ∀ (fuel : Nat) (stack seen collect : List String),
      ∀ x ∈ (dfsAux adj univ fuel stack seen collect).2, x ∈ collect ∨ x ∉ seen := by
  intro fuel
  induction fuel with
  | zero =>
    intro stack seen collect x hx
    exact Or.inl (by simpa [dfsAux] using hx)
  | succ n ih =>
    intro stack seen collect
    cases stack with
    | nil =>
      intro x hx
      exact Or.inl (by simpa [dfsAux] using hx)
    | cons cur rest =>
      intro x hx
      have hstep : dfsAux adj univ (n + 1) (cur :: rest) seen collect
          = dfsAux adj univ n ((univ.filter (fun y => adj cur y && !seen.contains y)) ++ rest)
            (seen ++ univ.filter (fun y => adj cur y && !seen.contains y))
            (collect ++ univ.filter (fun y => adj cur y && !seen.contains y)) := rfl
      rw [hstep] at hx
      rcases ih _ _ _ x hx with h | h
      · rcases List.mem_append.mp h with h' | h'
        · exact Or.inl h'
        · rw [List.mem_filter] at h'
          refine Or.inr ?_
          intro hxs
          have h2 := h'.2
          simp only [Bool.and_eq_true, Bool.not_eq_true'] at h2
          rw [contains_of_mem hxs] at h2
          simp at h2
      · exact Or.inr (fun hxs => h (List.mem_append_left _ hxs))

theorem dfsAux_nodup (adj : String → String → Bool) (univ : List String)
    (huniv : univ.Nodup) :
    ∀ (fuel : Nat) (stack seen collect : List String),
      collect.Nodup → (∀ x ∈ collect, x ∈ seen) →
      (dfsAux adj univ fuel stack seen collect).2.Nodup := by
  intro fuel
  induction fuel with
  | zero =>
    intro stack seen collect hc _
    simpa [dfsAux] using hc
  | succ n ih =>
    intro stack seen collect hc hcs
    cases stack with
    | nil => simpa [dfsAux] using hc
    | cons cur rest =>
      have hstep : dfsAux adj univ (n + 1) (cur :: rest) seen collect
          = dfsAux adj univ n ((univ.filter (fun y => adj cur y && !seen.contains y)) ++ rest)
            (seen ++ univ.filter (fun y => adj cur y && !seen.contains y))
            (collect ++ univ.filter (fun y => adj cur y && !seen.contains y)) := rfl
      rw [hstep]
      have hnotseen : ∀ x ∈ univ.filter (fun y => adj cur y && !seen.contains y), x ∉ seen := by
        intro x hx hxs
        rw [List.mem_filter] at hx
        have h2 := hx.2
        simp only [Bool.and_eq_true, Bool.not_eq_true'] at h2
        rw [contains_of_mem hxs] at h2
        simp at h2
      refine ih _ _ _ ?_ ?_
      · refine List.Nodup.append hc (huniv.filter _) ?_
        intro x hxc hxf
        exact hnotseen x hxf (hcs x hxc)
      · intro x hx
        rcases List.mem_append.mp hx with h | h
        · exact List.mem_append_left _ (hcs x h)
        · exact List.mem_append_right _ h

theorem dfsAux_closure (adj : String → String → Bool) (univ : List String)
    (huniv : univ.Nodup) :
    ∀ (fuel : Nat) (stack seen collect : List String),
      (∀ x ∈ stack, x ∈ collect) →
      (∀ a ∈ collect, a ∈ stack ∨ ∀ b ∈ univ, adj a b = true → b ∈ seen) →
      (univ.toFinset \ seen.toFinset).card * 2 + stack.length ≤ fuel →
      ∀ a ∈ (dfsAux adj univ fuel stack seen collect).2, ∀ b ∈ univ,
        adj a b = true → b ∈ (dfsAux adj univ fuel stack seen collect).1 := by
  intro fuel
  induction fuel with
  | zero =>
    intro stack seen collect _ hinv hfuel a ha b hb hadj
    have hstack : stack = [] := List.eq_nil_of_length_eq_zero (by omega)
    subst hstack
    simp only [dfsAux] at ha ⊢
    rcases hinv a ha with h | h
    · simp at h
    · exact h b hb hadj
  | succ n ih =>
    intro stack seen collect hsc hinv hfuel
    cases stack with
    | nil =>
      intro a ha b hb hadj
      simp only [dfsAux] at ha ⊢
      rcases hinv a ha with h | h
      · simp at h
      · exact h b hb hadj
    | cons cur rest =>
      have hstep : dfsAux adj univ (n + 1) (cur :: rest) seen collect
          = dfsAux adj univ n ((univ.filter (fun y => adj cur y && !seen.contains y)) ++ rest)
            (seen ++ univ.filter (fun y => adj cur y && !seen.contains y))
            (collect ++ univ.filter (fun y => adj cur y && !seen.contains y)) := rfl
      rw [hstep]
      have hnodupN : (univ.filter (fun y => adj cur y && !seen.contains y)).Nodup :=
        huniv.filter _
      have hksub : (univ.filter (fun y => adj cur y && !seen.contains y)).toFinset
          ⊆ univ.toFinset \ seen.toFinset := by
        intro x hx
        simp only [List.mem_toFinset, List.mem_filter, Bool.and_eq_true,
          Bool.not_eq_true'] at hx
        simp only [Finset.mem_sdiff, List.mem_toFinset]
        refine ⟨hx.1, fun hxs => ?_⟩
        have := hx.2.2
        rw [contains_of_mem hxs] at this
        simp at this
      refine ih _ _ _ ?_ ?_ ?_
      · intro x hx
        rcases List.mem_append.mp hx with h | h
        · exact List.mem_append_right _ h
        · exact List.mem_append_left _ (hsc x (List.mem_cons_of_mem _ h))
      · intro a ha
        rcases List.mem_append.mp ha with hac | han
        · rcases hinv a hac with hastack | haclosed
          · rcases List.mem_cons.mp hastack with rfl | h
            · refine Or.inr ?_
              intro b hb hadj
              by_cases hbs : b ∈ seen
              · exact List.mem_append_left _ hbs
              · refine List.mem_append_right _ ?_
                rw [List.mem_filter]
                exact ⟨hb, by simp [hadj, hbs]⟩
            · exact Or.inl (List.mem_append_right _ h)
          · refine Or.inr ?_
            intro b hb hadj
            exact List.mem_append_left _ (haclosed b hb hadj)
        · exact Or.inl (List.mem_append_left _ han)
      · have hcardN : (univ.filter (fun y => adj cur y && !seen.contains y)).toFinset.card
            = (univ.filter (fun y => adj cur y && !seen.contains y)).length :=
          List.toFinset_card_of_nodup hnodupN
        have hk_le : (univ.filter (fun y => adj cur y && !seen.contains y)).length
            ≤ (univ.toFinset \ seen.toFinset).card := by
          rw [← hcardN]
          exact Finset.card_le_card hksub
        have hnew_card : (univ.toFinset
              \ (seen ++ univ.filter (fun y => adj cur y && !seen.contains y)).toFinset).card
            = (univ.toFinset \ seen.toFinset).card
              - (univ.filter (fun y => adj cur y && !seen.contains y)).length := by
          rw [List.toFinset_append, ← Finset.sup_eq_union, ← sdiff_sdiff,
            Finset.card_sdiff hksub, hcardN]
        rw [hnew_card]
        simp only [List.length_append, List.length_cons] at hfuel ⊢
        omega

/-! ## Reachability lemmas -/

theorem reach_mem_univ {adj : String → String → Bool} {univ : List String}
    {r x : String} (hr : r ∈ univ) (h : Reach adj univ r x) : x ∈ univ := by
  induction h with
  | refl => exact hr
  | tail _ h2 _ => exact h2.2

theorem reach_not_seen {adj : String → String → Bool} {univ seen : List String}
    {r x : String} (hsym : ∀ a b, adj a b = adj b a)
    (hclosed : ∀ a ∈ seen, ∀ b ∈ univ, adj a b = true → b ∈ seen)
    (hr : r ∉ seen) (hru : r ∈ univ) (h : Reach adj univ r x) : x ∉ seen := by
  induction h with
  | refl => exact hr
  | @tail y z h1 h2 ih =>
    intro hz
    have hyu : y ∈ univ := reach_mem_univ hru h1
    have hzy : adj z y = true := by rw [hsym z y]; exact h2.1
    exact ih (hclosed z hz y hyu hzy)

theorem reach_mono {adj adj' : String → String → Bool} {univ : List String}
    {r x : String} (hmono : ∀ a b, adj a b = true → adj' a b = true)
    (h : Reach adj univ r x) : Reach adj' univ r x := by
  induction h with
  | refl => exact Relation.ReflTransGen.refl
  | @tail y z _ h2 ih => exact ih.tail ⟨hmono y z h2.1, h2.2⟩

theorem reach_trans {adj : String → String → Bool} {univ : List String}
    {a b c : String} (h1 : Reach adj univ a b) (h2 : Reach adj univ b c) :
    Reach adj univ a c :=
  Relation.ReflTransGen.trans h1 h2

/-! ## Characterisation of the component loop -/

theorem groupComps_spec (adj : String → String → Bool) (univ : List String)
    (hsym : ∀ a b, adj a b = adj b a) (huniv : univ.Nodup) :
    ∀ (ids seen : List String),
      (∀ x ∈ ids, x ∈ univ) →
      (∀ a ∈ seen, ∀ b ∈ univ, adj a b = true → b ∈ seen) →
      (∀ c ∈ groupComps adj univ ids seen, ∃ r, r ∈ ids ∧ r ∉ seen ∧
          ∀ x, x ∈ c ↔ Reach adj univ r x) ∧
      (∀ x ∈ ids, x ∉ seen → ∃ c ∈ groupComps adj univ ids seen, x ∈ c) ∧
      (∀ c ∈ groupComps adj univ ids seen, ∀ x ∈ c, x ∉ seen ∧ x ∈ univ) ∧
      List.Pairwise (fun c d => ∀ x ∈ c, x ∉ d) (groupComps adj univ ids seen) ∧
      (∀ c ∈ groupComps adj univ ids seen, c.Nodup) := by
  intro ids
  induction ids with
  | nil =>
    intro seen _ _
    simp [groupComps]
  | cons id rest ih =>
    intro seen hids hclosed
    by_cases hidseen : id ∈ seen
    · have heq0 : groupComps adj univ (id :: rest) seen
          = if seen.contains id then groupComps adj univ rest seen
            else (dfsAux adj univ (dfsFuel univ) [id] (seen ++ [id]) [id]).2
              :: groupComps adj univ rest
                (dfsAux adj univ (dfsFuel univ) [id] (seen ++ [id]) [id]).1 := rfl
      have heq : groupComps adj univ (id :: rest) seen
          = groupComps adj univ rest seen := by
        rw [heq0, if_pos (contains_of_mem hidseen)]
      obtain ⟨g1, g2, g3, g4, g5⟩ :=
        ih seen (fun x hx => hids x (List.mem_cons_of_mem _ hx)) hclosed
      rw [heq]
      refine ⟨?_, ?_, g3, g4, g5⟩
      · intro c hc
        obtain ⟨r, hr1, hr2, hr3⟩ := g1 c hc
        exact ⟨r, List.mem_cons_of_mem _ hr1, hr2, hr3⟩
      · intro x hx hxs
        rcases List.mem_cons.mp hx with rfl | hx'
        · exact absurd hidseen hxs
        · exact g2 x hx' hxs
    · have heq0 : groupComps adj univ (id :: rest) seen
          = if seen.contains id then groupComps adj univ rest seen
            else (dfsAux adj univ (dfsFuel univ) [id] (seen ++ [id]) [id]).2
              :: groupComps adj univ rest
                (dfsAux adj univ (dfsFuel univ) [id] (seen ++ [id]) [id]).1 := rfl
      have heq : groupComps adj univ (id :: rest) seen
          = (dfsAux adj univ (dfsFuel univ) [id] (seen ++ [id]) [id]).2
            :: groupComps adj univ rest
              (dfsAux adj univ (dfsFuel univ) [id] (seen ++ [id]) [id]).1 := by
        rw [heq0, if_neg (by simpa using hidseen)]
      obtain ⟨d, hd⟩ := dfsAux_delta adj univ (dfsFuel univ) [id] (seen ++ [id]) [id]
      set res := dfsAux adj univ (dfsFuel univ) [id] (seen ++ [id]) [id] with hres
      have hid_univ : id ∈ univ := hids id (by simp)
      have hsound : ∀ x ∈ res.2, Reach adj univ id x := by
        refine dfsAux_sound adj univ id _ _ _ _ ?_ ?_
        · intro x hx
          rw [List.mem_singleton] at hx
          subst hx
          exact Relation.ReflTransGen.refl
        · intro x hx
          rw [List.mem_singleton] at hx
          subst hx
          exact Relation.ReflTransGen.refl
      have hclosure : ∀ a ∈ res.2, ∀ b ∈ univ, adj a b = true → b ∈ res.1 := by
        refine dfsAux_closure adj univ huniv _ _ _ _ (fun x hx => hx) ?_ ?_
        · intro a ha
          exact Or.inl ha
        · have h1 : (univ.toFinset \ (seen ++ [id]).toFinset).card
              ≤ univ.toFinset.card :=
            Finset.card_le_card (Finset.sdiff_subset)
          have h2 : univ.toFinset.card ≤ univ.length := univ.toFinset_card_le
          simp only [dfsFuel, List.length_singleton]
          omega
      have hnodup : res.2.Nodup := by
        refine dfsAux_nodup adj univ huniv _ _ _ _ (by simp) ?_
        intro x hx
        rw [List.mem_singleton] at hx
        subst hx
        exact List.mem_append_right _ (by simp)
      have hsubseen : ∀ x ∈ res.2, x ∈ res.1 := by
        intro x hx
        rw [hd] at hx ⊢
        rcases List.mem_append.mp hx with h | h
        · exact List.mem_append_left _ (List.mem_append_right _ h)
        · exact List.mem_append_right _ h
      have hfresh : ∀ x ∈ res.2, x ∈ ([id] : List String) ∨ x ∉ seen ++ [id] :=
        dfsAux_fresh adj univ _ _ _ _
      have hcomp_not_seen : ∀ x ∈ res.2, x ∉ seen := by
        intro x hx
        rcases hfresh x hx with h | h
        · rw [List.mem_singleton] at h
          subst h
          exact hidseen
        · exact fun hxs => h (List.mem_append_left _ hxs)
      have hcomp_univ : ∀ x ∈ res.2, x ∈ univ := fun x hx =>
        reach_mem_univ hid_univ (hsound x hx)
      have hseen1_eq : res.1 = seen ++ res.2 := by
        rw [hd]
        simp
      have hclosed1 : ∀ a ∈ res.1, ∀ b ∈ univ, adj a b = true → b ∈ res.1 := by
        intro a ha b hb hadj
        rw [hseen1_eq] at ha ⊢
        rcases List.mem_append.mp ha with h | h
        · exact List.mem_append_left _ (hclosed a h b hb hadj)
        · have := hclosure a h b hb hadj
          rw [hseen1_eq] at this
          exact this
      have hcomplete : ∀ x, Reach adj univ id x → x ∈ res.2 := by
        intro x hx
        induction hx with
        | refl =>
          rw [hd]
          simp
        | @tail y z h1 h2 ihy =>
          have hy : y ∈ res.2 := ihy
          have hz1 : z ∈ res.1 := hclosure y hy z h2.2 h2.1
          rw [hseen1_eq] at hz1
          rcases List.mem_append.mp hz1 with hzs | hzc
          · exact absurd hzs
              (reach_not_seen hsym hclosed hidseen hid_univ (h1.tail h2))
          · exact hzc
      have hiff : ∀ x, x ∈ res.2 ↔ Reach adj univ id x :=
        fun x => ⟨hsound x, hcomplete x⟩
      obtain ⟨g1, g2, g3, g4, g5⟩ :=
        ih res.1 (fun x hx => hids x (List.mem_cons_of_mem _ hx)) hclosed1
      rw [heq]
      refine ⟨?_, ?_, ?_, ?_, ?_⟩
      · intro c hc
        rcases List.mem_cons.mp hc with rfl | hc'
        · exact ⟨id, by simp, hidseen, hiff⟩
        · obtain ⟨r, hr1, hr2, hr3⟩ := g1 c hc'
          refine ⟨r, List.mem_cons_of_mem _ hr1, ?_, hr3⟩
          intro hrs
          exact hr2 (by rw [hseen1_eq]; exact List.mem_append_left _ hrs)
      · intro x hx hxs
        rcases List.mem_cons.mp hx with rfl | hx'
        · exact ⟨res.2, by simp, by rw [hd]; simp⟩
        · by_cases hx1 : x ∈ res.1
          · rw [hseen1_eq] at hx1
            rcases List.mem_append.mp hx1 with h | h
            · exact absurd h hxs
            · exact ⟨res.2, by simp, h⟩
          · obtain ⟨c, hc1, hc2⟩ := g2 x hx' hx1
            exact ⟨c, List.mem_cons_of_mem _ hc1, hc2⟩
      · intro c hc x hx
        rcases List.mem_cons.mp hc with rfl | hc'
        · exact ⟨hcomp_not_seen x hx, hcomp_univ x hx⟩
        · obtain ⟨h1, h2⟩ := g3 c hc' x hx
          refine ⟨fun hxs => h1 ?_, h2⟩
          rw [hseen1_eq]
          exact List.mem_append_left _ hxs
      · refine List.Pairwise.cons ?_ g4
        intro c hc x hx hxc
        exact (g3 c hc x hxc).1 (hsubseen x hx)
      · intro c hc
        rcases List.mem_cons.mp hc with rfl | hc'
        · exact hnodup
        · exact g5 c hc'

/-! ## Decimal rendering -/

theorem digitChar_toNat (d : Nat) : (digitChar d).toNat = 48 + d % 10 := by
  have h : d % 10 < 10 := Nat.mod_lt _ (by norm_num)
  unfold digitChar
  set k := d % 10 with hk
  clear_value k
  interval_cases k <;> decide

theorem digitsVal_digitsAux : ∀ (fuel n : Nat), n ≤ fuel →
    digitsVal (digitsAux fuel n) = n := by
  intro fuel
  induction fuel with
  | zero =>
    intro n hn
    interval_cases n
    simp [digitsAux, digitsVal]
  | succ m ih =>
    intro n hn
    match n with
    | 0 => simp [digitsAux, digitsVal]
    | k + 1 =>
      have hdiv : (k + 1) / 10 ≤ m := by
        have := Nat.div_lt_self (Nat.succ_pos k) (by norm_num : 1 < 10)
        omega
      simp only [digitsAux, digitsVal]
      rw [ih _ hdiv, digitChar_toNat]
      have h10 := Nat.mod_add_div (k + 1) 10
      have hm : (k + 1) % 10 % 10 = (k + 1) % 10 := Nat.mod_mod_of_dvd _ dvd_rfl
      omega

theorem natRepr_inj : ∀ {n m : Nat}, natRepr n = natRepr m → n = m := by
  intro n m h
  unfold natRepr at h
  by_cases hn : n = 0 <;> by_cases hm : m = 0
  · omega
  · exfalso
    rw [if_pos hn, if_neg hm] at h
    have hdata : ("0" : String).data = (digitsAux m m).reverse := congrArg String.data h
    have h0 : ("0" : String).data = ['0'] := rfl
    have h2 : digitsAux m m = ['0'] := by
      have := congrArg List.reverse (h0 ▸ hdata)
      simpa using this.symm
    have h3 := digitsVal_digitsAux m m le_rfl
    rw [h2] at h3
    have : digitsVal ['0'] = 0 := by decide
    omega
  · exfalso
    rw [if_neg hn, if_pos hm] at h
    have hdata : (digitsAux n n).reverse = ("0" : String).data := congrArg String.data h
    have h0 : ("0" : String).data = ['0'] := rfl
    have h2 : digitsAux n n = ['0'] := by
      have := congrArg List.reverse (h0 ▸ hdata)
      simpa using this
    have h3 := digitsVal_digitsAux n n le_rfl
    rw [h2] at h3
    have : digitsVal ['0'] = 0 := by decide
    omega
  · rw [if_neg hn, if_neg hm] at h
    have hdata : (digitsAux n n).reverse = (digitsAux m m).reverse :=
      congrArg String.data h
    have h2 : digitsAux n n = digitsAux m m := by
      have := congrArg List.reverse hdata
      simpa using this
    have h3 := digitsVal_digitsAux n n le_rfl
    rw [h2, digitsVal_digitsAux m m le_rfl] at h3
    omega

/-! ## Naming lemmas -/

theorem nameComps_length (g : String) (total : Nat) :
    ∀ (cs : List (List String)) (idx : Nat),
      (nameComps g total cs idx).length = cs.length := by
  intro cs
  induction cs with
  | nil => intro idx; simp [nameComps]
  | cons c cs ih =>
    intro idx
    by_cases h : c.length = total <;> simp [nameComps, h, ih]

theorem nameComps_ids (g : String) (total : Nat) :
    ∀ (cs : List (List String)) (idx : Nat),
      (nameComps g total cs idx).map (·.ids) = cs := by
  intro cs
  induction cs with
  | nil => intro idx; simp [nameComps]
  | cons c cs ih =>
    intro idx
    by_cases h : c.length = total <;> simp [nameComps, h, ih]

theorem mem_nameComps {g : String} {total : Nat} :
    ∀ {cs : List (List String)} {idx : Nat} {c : Comp},
      c ∈ nameComps g total cs idx →
      c.ids ∈ cs ∧ c.base = g ∧
        (c.id = g ∨ ∃ k, 1 ≤ k ∧ c.id = g ++ " • " ++ natRepr k) := by
  intro cs
  induction cs with
  | nil => intro idx c hc; simp [nameComps] at hc
  | cons c0 cs ih =>
    intro idx c hc
    by_cases h : c0.length = total
    · rw [show nameComps g total (c0 :: cs) idx
          = ⟨g, g, c0⟩ :: nameComps g total cs idx by simp [nameComps, h]] at hc
      rcases List.mem_cons.mp hc with rfl | hc'
      · exact ⟨by simp, rfl, Or.inl rfl⟩
      · obtain ⟨h1, h2, h3⟩ := ih hc'
        exact ⟨List.mem_cons_of_mem _ h1, h2, h3⟩
    · rw [show nameComps g total (c0 :: cs) idx
          = ⟨g ++ " • " ++ natRepr (idx + 1), g, c0⟩ :: nameComps g total cs (idx + 1)
          by simp [nameComps, h]] at hc
      rcases List.mem_cons.mp hc with rfl | hc'
      · exact ⟨by simp, rfl, Or.inr ⟨idx + 1, by omega, rfl⟩⟩
      · obtain ⟨h1, h2, h3⟩ := ih hc'
        exact ⟨List.mem_cons_of_mem _ h1, h2, h3⟩

theorem nameComps_surj {g : String} {total : Nat} :
    ∀ {cs : List (List String)} {idx : Nat} {m : List String}, m ∈ cs →
      ∃ c ∈ nameComps g total cs idx, c.ids = m := by
  intro cs
  induction cs with
  | nil => intro idx m hm; simp at hm
  | cons c0 cs ih =>
    intro idx m hm
    by_cases h : c0.length = total
    · rw [show nameComps g total (c0 :: cs) idx
          = ⟨g, g, c0⟩ :: nameComps g total cs idx by simp [nameComps, h]]
      rcases List.mem_cons.mp hm with rfl | hm'
      · exact ⟨⟨g, g, m⟩, by simp, rfl⟩
      · obtain ⟨c, hc1, hc2⟩ := ih hm'
        exact ⟨c, List.mem_cons_of_mem _ hc1, hc2⟩
    · rw [show nameComps g total (c0 :: cs) idx
          = ⟨g ++ " • " ++ natRepr (idx + 1), g, c0⟩ :: nameComps g total cs (idx + 1)
          by simp [nameComps, h]]
      rcases List.mem_cons.mp hm with rfl | hm'
      · exact ⟨⟨g ++ " • " ++ natRepr (idx + 1), g, m⟩, by simp, rfl⟩
      · obtain ⟨c, hc1, hc2⟩ := ih hm'
        exact ⟨c, List.mem_cons_of_mem _ hc1, hc2⟩

theorem nameComps_getElem_of_no_span {g : String} {total : Nat} :
    ∀ {cs : List (List String)} {idx : Nat}, (∀ c ∈ cs, c.length ≠ total) →
      ∀ (i : Nat) (c : List String), cs[i]? = some c →
        (nameComps g total cs idx)[i]?
          = some ⟨g ++ " • " ++ natRepr (idx + i + 1), g, c⟩ := by
  intro cs
  induction cs with
  | nil => intro idx _ i c hc; simp at hc
  | cons c0 cs ih =>
    intro idx h i c hc
    have hc0 : c0.length ≠ total := h c0 (by simp)
    have hname : nameComps g total (c0 :: cs) idx
        = ⟨g ++ " • " ++ natRepr (idx + 1), g, c0⟩ :: nameComps g total cs (idx + 1) := by
      simp [nameComps, hc0]
    cases i with
    | zero =>
      rw [List.getElem?_cons_zero] at hc
      obtain rfl : c0 = c := by simpa using hc
      rw [hname, List.getElem?_cons_zero]
    | succ j =>
      rw [List.getElem?_cons_succ] at hc
      rw [hname, List.getElem?_cons_succ]
      have hih := @ih (idx + 1) (fun x hx => h x (List.mem_cons_of_mem _ hx)) j c hc
      have harg : idx + 1 + j + 1 = idx + (j + 1) + 1 := by omega
      rw [harg] at hih
      exact hih

/-! ## Group-level lemmas -/

theorem gNodesOf_mem_iff {nodes : List Node} {g x : String} :
    x ∈ gNodesOf nodes g ↔ ∃ n ∈ nodes, n.baseGroup = g ∧ n.id = x := by
  simp only [gNodesOf, List.mem_map, List.mem_filter, beq_iff_eq]
  constructor
  · rintro ⟨n, ⟨hn, hg⟩, hid⟩
    exact ⟨n, hn, hg, hid⟩
  · rintro ⟨n, hn, hg, hid⟩
    exact ⟨n, ⟨hn, hg⟩, hid⟩

theorem gNodesOf_subset_ids {nodes : List Node} {g x : String}
    (h : x ∈ gNodesOf nodes g) : x ∈ nodes.map (·.id) := by
  obtain ⟨n, hn, _, hid⟩ := gNodesOf_mem_iff.mp h
  exact List.mem_map.mpr ⟨n, hn, hid⟩

theorem gNodesOf_nodup {nodes : List Node} {g : String}
    (h : (nodes.map (·.id)).Nodup) : (gNodesOf nodes g).Nodup :=
  h.sublist ((List.filter_sublist nodes).map _)

theorem id_inj {nodes : List Node} (h : (nodes.map (·.id)).Nodup) :
    ∀ n1 ∈ nodes, ∀ n2 ∈ nodes, n1.id = n2.id → n1 = n2 :=
  List.inj_on_of_nodup_map h

theorem gNodesOf_disjoint {nodes : List Node} {g1 g2 : String}
    (h : (nodes.map (·.id)).Nodup) (hne : g1 ≠ g2) :
    ∀ x ∈ gNodesOf nodes g1, x ∉ gNodesOf nodes g2 := by
  intro x hx1 hx2
  obtain ⟨n1, hn1, hg1, hid1⟩ := gNodesOf_mem_iff.mp hx1
  obtain ⟨n2, hn2, hg2, hid2⟩ := gNodesOf_mem_iff.mp hx2
  have : n1 = n2 := id_inj h n1 hn1 n2 hn2 (by rw [hid1, hid2])
  subst this
  exact hne (hg1 ▸ hg2 ▸ rfl)

theorem adjRel_symm (L : List Link) : ∀ a b, adjRel L a b = adjRel L b a := by
  intro a b
  rw [Bool.eq_iff_iff]
  simp only [adjRel, List.any_eq_true, Bool.or_eq_true, Bool.and_eq_true, beq_iff_eq]
  constructor <;> rintro ⟨l, hl, h⟩ <;> exact ⟨l, hl, by tauto⟩

theorem adjRel_gLinks_mem {nodes : List Node} {links : List Link} {th : ℚ}
    {g a b : String} (h : adjRel (gLinksOf nodes links th g) a b = true) :
    a ∈ gNodesOf nodes g ∧ b ∈ gNodesOf nodes g := by
  rw [adjRel, List.any_eq_true] at h
  obtain ⟨l, hl, hcond⟩ := h
  rw [gLinksOf, List.mem_filter] at hl
  have hsrc := hl.2
  simp only [Bool.and_eq_true] at hsrc
  obtain ⟨⟨hs, ht⟩, _⟩ := hsrc
  simp only [Bool.or_eq_true, Bool.and_eq_true, beq_iff_eq] at hcond
  rcases hcond with ⟨h1, h2⟩ | ⟨h1, h2⟩
  · exact ⟨h1 ▸ mem_of_contains hs, h2 ▸ mem_of_contains ht⟩
  · exact ⟨h2 ▸ mem_of_contains ht, h1 ▸ mem_of_contains hs⟩

theorem adjRel_mono {nodes : List Node} {links : List Link} {t t' : ℚ}
    {g a b : String} (hle : t ≤ t')
    (h : adjRel (gLinksOf nodes links t' g) a b = true) :
    adjRel (gLinksOf nodes links t g) a b = true := by
  rw [adjRel, List.any_eq_true] at h ⊢
  obtain ⟨l, hl, hcond⟩ := h
  refine ⟨l, ?_, hcond⟩
  rw [gLinksOf, List.mem_filter] at hl ⊢
  refine ⟨hl.1, ?_⟩
  have := hl.2
  simp only [Bool.and_eq_true, decide_eq_true_eq] at this ⊢
  exact ⟨⟨this.1.1, this.1.2⟩, le_trans hle this.2⟩

/-- The full characterisation of one group's named components. -/
theorem groupClusters_spec (nodes : List Node) (links : List Link) (th : ℚ)
    (g : String) (hnodes : (nodes.map (·.id)).Nodup) :
    (∀ c ∈ groupClusters nodes links th g, ∃ r, r ∈ gNodesOf nodes g ∧
        ∀ x, x ∈ c.ids ↔
          Reach (adjRel (gLinksOf nodes links th g)) (gNodesOf nodes g) r x) ∧
    (∀ x ∈ gNodesOf nodes g, ∃ c ∈ groupClusters nodes links th g, x ∈ c.ids) ∧
    (∀ c ∈ groupClusters nodes links th g, ∀ x ∈ c.ids, x ∈ gNodesOf nodes g) ∧
    List.Pairwise (fun c d => ∀ x ∈ c.ids, x ∉ d.ids)
      (groupClusters nodes links th g) ∧
    (∀ c ∈ groupClusters nodes links th g, c.ids.Nodup ∧ c.base = g ∧ c.ids ≠ []) := by
  have huniv : (gNodesOf nodes g).Nodup := gNodesOf_nodup hnodes
  obtain ⟨g1, g2, g3, g4, g5⟩ := groupComps_spec
    (adjRel (gLinksOf nodes links th g)) (gNodesOf nodes g)
    (adjRel_symm _) huniv (gNodesOf nodes g) [] (fun x hx => hx) (by simp)
  have hids := nameComps_ids g (gNodesOf nodes g).length
    (groupComps (adjRel (gLinksOf nodes links th g)) (gNodesOf nodes g)
      (gNodesOf nodes g) []) 0
  refine ⟨?_, ?_, ?_, ?_, ?_⟩
  · intro c hc
    obtain ⟨hmem, _, _⟩ := mem_nameComps hc
    obtain ⟨r, hr1, _, hr3⟩ := g1 c.ids hmem
    exact ⟨r, hr1, hr3⟩
  · intro x hx
    obtain ⟨m, hm1, hm2⟩ := g2 x hx (by simp)
    obtain ⟨c, hc1, hc2⟩ := nameComps_surj hm1
    exact ⟨c, hc1, hc2 ▸ hm2⟩
  · intro c hc x hx
    obtain ⟨hmem, _, _⟩ := mem_nameComps hc
    exact (g3 c.ids hmem x hx).2
  · have : List.Pairwise (fun c d : Comp => ∀ x ∈ c.ids, x ∉ d.ids)
        (nameComps g (gNodesOf nodes g).length
          (groupComps (adjRel (gLinksOf nodes links th g)) (gNodesOf nodes g)
            (gNodesOf nodes g) []) 0) := by
      have hp := g4
      rw [← hids] at hp
      exact (List.pairwise_map.mp hp)
    exact this
  · intro c hc
    obtain ⟨hmem, hbase, _⟩ := mem_nameComps hc
    refine ⟨g5 c.ids hmem, hbase, ?_⟩
    obtain ⟨r, _, _, hr3⟩ := g1 c.ids hmem
    intro hnil
    have : r ∈ c.ids := (hr3 r).mpr Relation.ReflTransGen.refl
    rw [hnil] at this
    simp at this

/-! ## Component names are distinct -/

theorem groups_pf : ∀ g1 ∈ GROUPS, ∀ g2 ∈ GROUPS,
    g1 = g2 ∨ ¬ g1.data <+: g2.data := by decide

theorem groups_nodup : GROUPS.Nodup := by decide

theorem suffix_ne_bare {g1 g2 : String} (h1 : g1 ∈ GROUPS) (h2 : g2 ∈ GROUPS)
    (r : String) : g1 ≠ g2 ++ " • " ++ r ∨ g1 = g2 := by
  by_cases hg : g1 = g2
  · exact Or.inr hg
  refine Or.inl fun heq => ?_
  have hdata : g1.data = g2.data ++ (" • " ++ r).data := by
    have := congrArg String.data heq
    rwa [String.data_append, String.data_append, List.append_assoc,
      ← String.data_append] at this
  have hpre : g2.data <+: g1.data := ⟨(" • " ++ r).data, hdata.symm⟩
  rcases groups_pf g2 h2 g1 h1 with h | h
  · exact hg h.symm
  · exact h hpre

theorem suffix_inj {g : String} {r1 r2 : String}
    (h : g ++ " • " ++ r1 = g ++ " • " ++ r2) : r1 = r2 := by
  have hdata := congrArg String.data h
  rw [String.data_append, String.data_append, String.data_append,
    String.data_append] at hdata
  rw [List.append_assoc, List.append_assoc] at hdata
  have h2 := List.append_cancel_left hdata
  have h3 := List.append_cancel_left h2
  exact String.ext h3

theorem bare_ne_suffix {g : String} (r : String) : g ≠ g ++ " • " ++ r := by
  intro h
  have := congrArg String.length h
  rw [String.length_append, String.length_append] at this
  have h2 : (" • " : String).length = 3 := by decide
  omega

theorem cross_group_name_ne {g1 g2 : String} (h1 : g1 ∈ GROUPS) (h2 : g2 ∈ GROUPS)
    (hne : g1 ≠ g2) {n1 n2 : String}
    (hn1 : n1 = g1 ∨ ∃ k, 1 ≤ k ∧ n1 = g1 ++ " • " ++ natRepr k)
    (hn2 : n2 = g2 ∨ ∃ k, 1 ≤ k ∧ n2 = g2 ++ " • " ++ natRepr k) :
    n1 ≠ n2 := by
  intro heq
  rcases hn1 with rfl | ⟨k1, _, rfl⟩ <;> rcases hn2 with rfl | ⟨k2, _, rfl⟩
  · exact hne heq
  · rcases suffix_ne_bare h1 h2 (natRepr k2) with h | h
    · exact h heq
    · exact hne h
  · rcases suffix_ne_bare h2 h1 (natRepr k1) with h | h
    · exact h heq.symm
    · exact hne h.symm
  · have hdata := congrArg String.data heq
    rw [String.data_append, String.data_append, String.data_append,
      String.data_append] at hdata
    rw [List.append_assoc, List.append_assoc] at hdata
    rcases List.append_eq_append_iff.mp hdata with ⟨a', ha1, _⟩ | ⟨c', hc1, _⟩
    · rcases groups_pf g1 h1 g2 h2 with h | h
      · exact hne h
      · exact h ⟨a', ha1.symm⟩
    · rcases groups_pf g2 h2 g1 h1 with h | h
      · exact hne h.symm
      · exact h ⟨c', hc1.symm⟩

theorem mem_nameComps_no_span {g : String} {total : Nat} :
    ∀ {cs : List (List String)} {idx : Nat} {c : Comp},
      (∀ m ∈ cs, m.length ≠ total) → c ∈ nameComps g total cs idx →
      ∃ k, idx + 1 ≤ k ∧ c.id = g ++ " • " ++ natRepr k := by
  intro cs
  induction cs with
  | nil => intro idx c _ hc; simp [nameComps] at hc
  | cons c0 cs ih =>
    intro idx c h hc
    have hc0 : c0.length ≠ total := h c0 (by simp)
    rw [show nameComps g total (c0 :: cs) idx
        = ⟨g ++ " • " ++ natRepr (idx + 1), g, c0⟩ :: nameComps g total cs (idx + 1)
        by simp [nameComps, hc0]] at hc
    rcases List.mem_cons.mp hc with rfl | hc'
    · exact ⟨idx + 1, le_refl _, rfl⟩
    · obtain ⟨k, hk1, hk2⟩ := ih (fun m hm => h m (List.mem_cons_of_mem _ hm)) hc'
      exact ⟨k, by omega, hk2⟩

theorem nameComps_id_nodup_no_span {g : String} {total : Nat} :
    ∀ {cs : List (List String)} {idx : Nat},
      (∀ m ∈ cs, m.length ≠ total) →
      ((nameComps g total cs idx).map (·.id)).Nodup := by
  intro cs
  induction cs with
  | nil => intro idx _; simp [nameComps]
  | cons c0 cs ih =>
    intro idx h
    have hc0 : c0.length ≠ total := h c0 (by simp)
    rw [show nameComps g total (c0 :: cs) idx
        = ⟨g ++ " • " ++ natRepr (idx + 1), g, c0⟩ :: nameComps g total cs (idx + 1)
        by simp [nameComps, hc0]]
    rw [List.map_cons, List.nodup_cons]
    refine ⟨?_, ih (fun m hm => h m (List.mem_cons_of_mem _ hm))⟩
    intro hmem
    rw [List.mem_map] at hmem
    obtain ⟨c, hc, hcid⟩ := hmem
    obtain ⟨k, hk1, hk2⟩ := mem_nameComps_no_span
      (fun m hm => h m (List.mem_cons_of_mem _ hm)) hc
    rw [hk2] at hcid
    have := natRepr_inj (suffix_inj hcid)
    omega

/-! ## Spanning components -/

theorem span_of_length {m univ : List String} (hm : m.Nodup) (hu : univ.Nodup)
    (hsub : ∀ x ∈ m, x ∈ univ) (hlen : m.length = univ.length) :
    ∀ x ∈ univ, x ∈ m := by
  have hsubF : m.toFinset ⊆ univ.toFinset := by
    intro x hx
    rw [List.mem_toFinset] at hx ⊢
    exact hsub x hx
  have hcard : univ.toFinset.card ≤ m.toFinset.card := by
    rw [List.toFinset_card_of_nodup hm, List.toFinset_card_of_nodup hu, hlen]
  have heq := Finset.eq_of_subset_of_card_le hsubF hcard
  intro x hx
  have : x ∈ univ.toFinset := List.mem_toFinset.mpr hx
  rw [← heq] at this
  exact List.mem_toFinset.mp this

theorem span_singleton {cs : List (List String)} {univ m : List String}
    (hp : List.Pairwise (fun c d => ∀ x ∈ c, x ∉ d) cs)
    (hne : ∀ c ∈ cs, c ≠ [])
    (hu : ∀ c ∈ cs, ∀ x ∈ c, x ∈ univ)
    (hm : m ∈ cs) (hspan : ∀ x ∈ univ, x ∈ m) : cs = [m] := by
  cases cs with
  | nil => simp at hm
  | cons c0 rest =>
    rcases hp with _ | ⟨hp0, hp'⟩
    rcases List.mem_cons.mp hm with rfl | hm'
    · cases rest with
      | nil => rfl
      | cons c1 r2 =>
        exfalso
        obtain ⟨x, hx⟩ := List.exists_mem_of_ne_nil c1 (hne c1 (by simp))
        exact hp0 c1 (by simp) x (hspan x (hu c1 (by simp) x hx)) hx
    · exfalso
      obtain ⟨x, hx⟩ := List.exists_mem_of_ne_nil c0 (hne c0 (by simp))
      exact hp0 m hm' x hx (hspan x (hu c0 (by simp) x hx))

/-! ## The component list of the clusterer -/

theorem dfsAux_subset (adj : String → String → Bool) (univ : List String) :
    ∀ (fuel : Nat) (stack seen collect : List String),
      ∀ x ∈ (dfsAux adj univ fuel stack seen collect).2, x ∈ collect ∨ x ∈ univ := by
  intro fuel
  induction fuel with
  | zero =>
    intro stack seen collect x hx
    exact Or.inl (by simpa [dfsAux] using hx)
  | succ n ih =>
    intro stack seen collect
    cases stack with
    | nil =>
      intro x hx
      exact Or.inl (by simpa [dfsAux] using hx)
    | cons cur rest =>
      intro x hx
      have hstep : dfsAux adj univ (n + 1) (cur :: rest) seen collect
          = dfsAux adj univ n ((univ.filter (fun y => adj cur y && !seen.contains y)) ++ rest)
            (seen ++ univ.filter (fun y => adj cur y && !seen.contains y))
            (collect ++ univ.filter (fun y => adj cur y && !seen.contains y)) := rfl
      rw [hstep] at hx
      rcases ih _ _ _ x hx with h | h
      · rcases List.mem_append.mp h with h' | h'
        · exact Or.inl h'
        · exact Or.inr (List.mem_filter.mp h').1
      · exact Or.inr h

theorem groupComps_subset (adj : String → String → Bool) (univ : List String) :
    ∀ (ids seen : List String), (∀ x ∈ ids, x ∈ univ) →
      ∀ c ∈ groupComps adj univ ids seen, ∀ x ∈ c, x ∈ univ := by
  intro ids
  induction ids with
  | nil => intro seen _; simp [groupComps]
  | cons id rest ih =>
    intro seen hids
    have heq0 : groupComps adj univ (id :: rest) seen
        = if seen.contains id then groupComps adj univ rest seen
          else (dfsAux adj univ (dfsFuel univ) [id] (seen ++ [id]) [id]).2
            :: groupComps adj univ rest
              (dfsAux adj univ (dfsFuel univ) [id] (seen ++ [id]) [id]).1 := rfl
    rw [heq0]
    by_cases hid : seen.contains id = true
    · rw [if_pos hid]
      exact ih _ (fun x hx => hids x (List.mem_cons_of_mem _ hx))
    · rw [if_neg hid]
      intro c hc x hx
      rcases List.mem_cons.mp hc with rfl | hc'
      · rcases dfsAux_subset adj univ _ _ _ _ x hx with h | h
        · rw [List.mem_singleton] at h
          subst h
          exact hids x (by simp)
        · exact h
      · exact ih _ (fun y hy => hids y (List.mem_cons_of_mem _ hy)) c hc' x hx

theorem mem_buildComps {nodes : List Node} {links : List Link} {th : ℚ} {c : Comp} :
    c ∈ buildComps nodes links th
      ↔ ∃ g ∈ GROUPS, c ∈ groupClusters nodes links th g := by
  simp [buildComps, List.mem_flatMap]

theorem mem_groupClusters_unfold {nodes : List Node} {links : List Link}
    {th : ℚ} {g : String} {c : Comp} :
    c ∈ groupClusters nodes links th g
      ↔ c ∈ nameComps g (gNodesOf nodes g).length
        (groupComps (adjRel (gLinksOf nodes links th g)) (gNodesOf nodes g)
          (gNodesOf nodes g) []) 0 := Iff.rfl

theorem groupClusters_base {nodes : List Node} {links : List Link} {th : ℚ}
    {g : String} {c : Comp} (hc : c ∈ groupClusters nodes links th g) :
    c.base = g :=
  (mem_nameComps (mem_groupClusters_unfold.mp hc)).2.1

theorem groupClusters_id_shape {nodes : List Node} {links : List Link} {th : ℚ}
    {g : String} {c : Comp} (hc : c ∈ groupClusters nodes links th g) :
    c.id = g ∨ ∃ k, 1 ≤ k ∧ c.id = g ++ " • " ++ natRepr k :=
  (mem_nameComps (mem_groupClusters_unfold.mp hc)).2.2

theorem groupClusters_subset {nodes : List Node} {links : List Link} {th : ℚ}
    {g : String} {c : Comp} (hc : c ∈ groupClusters nodes links th g) :
    ∀ x ∈ c.ids, x ∈ gNodesOf nodes g := by
  intro x hx
  have hmem := (mem_nameComps (mem_groupClusters_unfold.mp hc)).1
  exact groupComps_subset _ _ _ _ (fun y hy => hy) c.ids hmem x hx

theorem groupClusters_id_nodup {nodes : List Node} {links : List Link} {th : ℚ}
    {g : String} (hnodes : (nodes.map (·.id)).Nodup) :
    ((groupClusters nodes links th g).map (·.id)).Nodup := by
  have huniv : (gNodesOf nodes g).Nodup := gNodesOf_nodup hnodes
  obtain ⟨g1, _, g3, g4, g5⟩ := groupComps_spec
    (adjRel (gLinksOf nodes links th g)) (gNodesOf nodes g)
    (adjRel_symm _) huniv (gNodesOf nodes g) [] (fun x hx => hx) (by simp)
  by_cases hspan : ∀ m ∈ groupComps (adjRel (gLinksOf nodes links th g))
      (gNodesOf nodes g) (gNodesOf nodes g) [], m.length ≠ (gNodesOf nodes g).length
  · exact nameComps_id_nodup_no_span hspan
  · push_neg at hspan
    obtain ⟨m, hm, hmlen⟩ := hspan
    have hmnodup : m.Nodup := g5 m hm
    have hmsub : ∀ x ∈ m, x ∈ gNodesOf nodes g := fun x hx => (g3 m hm x hx).2
    have hsp := span_of_length hmnodup huniv hmsub hmlen
    have hnonempty : ∀ c ∈ groupComps (adjRel (gLinksOf nodes links th g))
        (gNodesOf nodes g) (gNodesOf nodes g) [], c ≠ [] := by
      intro c hc hcnil
      obtain ⟨r, _, _, hr3⟩ := g1 c hc
      have : r ∈ c := (hr3 r).mpr Relation.ReflTransGen.refl
      rw [hcnil] at this
      simp at this
    have hcs1 := span_singleton g4 hnonempty
      (fun c hc x hx => (g3 c hc x hx).2) hm hsp
    rw [groupClusters, hcs1]
    by_cases h : m.length = (gNodesOf nodes g).length <;> simp [nameComps, h]

theorem map_flatMap' {α β γ : Type} (l : List α) (f : α → List β) (g : β → γ) :
    (l.flatMap f).map g = l.flatMap fun x => (f x).map g := by
  induction l with
  | nil => simp
  | cons a l ih => simp [ih]

theorem buildComps_id_nodup {nodes : List Node} {links : List Link} {th : ℚ}
    (hnodes : (nodes.map (·.id)).Nodup) :
    ((buildComps nodes links th).map (·.id)).Nodup := by
  rw [buildComps, map_flatMap', List.nodup_flatMap]
  refine ⟨fun g _ => groupClusters_id_nodup hnodes, ?_⟩
  refine groups_nodup.pairwise_of_forall_ne ?_
  intro g1 hg1 g2 hg2 hne
  simp only [Function.onFun]
  intro x hx1 hx2
  rw [List.mem_map] at hx1 hx2
  obtain ⟨c1, hc1, rfl⟩ := hx1
  obtain ⟨c2, hc2, hcid⟩ := hx2
  exact cross_group_name_ne hg1 hg2 hne
    (groupClusters_id_shape hc1) (groupClusters_id_shape hc2) hcid.symm

theorem pairwise_shared_eq {l : List Comp}
    (hp : List.Pairwise (fun c d => ∀ x ∈ c.ids, x ∉ d.ids) l) :
    ∀ c ∈ l, ∀ c' ∈ l, ∀ x, x ∈ c.ids → x ∈ c'.ids → c = c' := by
  induction l with
  | nil => simp
  | cons a l ih =>
    rcases hp with _ | ⟨h0, hp'⟩
    intro c hc c' hc' x hx hx'
    rcases List.mem_cons.mp hc with rfl | hc2 <;> rcases List.mem_cons.mp hc' with rfl | hc2'
    · rfl
    · exact absurd hx' (h0 c' hc2' x hx)
    · exact absurd hx (h0 c hc2 x hx')
    · exact ih hp' c hc2 c' hc2' x hx hx'

theorem buildComps_unique {nodes : List Node} {links : List Link} {th : ℚ}
    (hnodes : (nodes.map (·.id)).Nodup) :
    ∀ c ∈ buildComps nodes links th, ∀ c' ∈ buildComps nodes links th,
      ∀ x, x ∈ c.ids → x ∈ c'.ids → c = c' := by
  intro c hc c' hc' x hx hx'
  obtain ⟨gg, hgg, hcg⟩ := mem_buildComps.mp hc
  obtain ⟨gg', hgg', hcg'⟩ := mem_buildComps.mp hc'
  have hxg : x ∈ gNodesOf nodes gg := groupClusters_subset hcg x hx
  have hxg' : x ∈ gNodesOf nodes gg' := groupClusters_subset hcg' x hx'
  have hgeq : gg = gg' := by
    by_contra hne
    exact gNodesOf_disjoint hnodes hne x hxg hxg'
  subst hgeq
  have hpair := (groupClusters_spec nodes links th gg hnodes).2.2.2.1
  exact pairwise_shared_eq hpair c hcg c' hcg' x hx hx'

theorem buildComps_cover {nodes : List Node} {links : List Link} {th : ℚ}
    (hnodes : (nodes.map (·.id)).Nodup)
    (hgroups : ∀ n ∈ nodes, n.baseGroup ∈ GROUPS) :
    ∀ n ∈ nodes, ∃ c ∈ buildComps nodes links th, n.id ∈ c.ids := by
  intro n hn
  have hx : n.id ∈ gNodesOf nodes n.baseGroup :=
    gNodesOf_mem_iff.mpr ⟨n, hn, rfl, rfl⟩
  obtain ⟨c, hc1, hc2⟩ :=
    (groupClusters_spec nodes links th n.baseGroup hnodes).2.1 n.id hx
  exact ⟨c, mem_buildComps.mpr ⟨n.baseGroup, hgroups n hn, hc1⟩, hc2⟩

theorem pairwise_flatMap' {α β : Type} {R : β → β → Prop} {f : α → List β}
    {l : List α} (hin : ∀ a ∈ l, List.Pairwise R (f a))
    (hacross : l.Pairwise (fun a b => ∀ x ∈ f a, ∀ y ∈ f b, R x y)) :
    List.Pairwise R (l.flatMap f) := by
  induction l with
  | nil => simp
  | cons a l ih =>
    rcases hacross with _ | ⟨h0, hacr⟩
    rw [List.flatMap_cons, List.pairwise_append]
    refine ⟨hin a (by simp), ih (fun b hb => hin b (List.mem_cons_of_mem _ hb)) hacr, ?_⟩
    intro x hx y hy
    rw [List.mem_flatMap] at hy
    obtain ⟨b, hb, hyb⟩ := hy
    exact h0 b hb x hx y hyb

theorem buildComps_pairwise {nodes : List Node} {links : List Link} {th : ℚ}
    (hnodes : (nodes.map (·.id)).Nodup) :
    List.Pairwise (fun c d => ∀ x ∈ c.ids, x ∉ d.ids)
      (buildComps nodes links th) := by
  rw [buildComps]
  refine pairwise_flatMap' (fun g _ => (groupClusters_spec nodes links th g hnodes).2.2.2.1) ?_
  refine groups_nodup.pairwise_of_forall_ne ?_
  intro g1 _ g2 _ hne c1 hc1 c2 hc2 x hx hx'
  exact gNodesOf_disjoint hnodes hne x
    (groupClusters_subset hc1 x hx) (groupClusters_subset hc2 x hx')

/-! ## Aggregation lemmas -/

theorem accStep_point (comps : List Comp) (value : String → ℚ) (l : Link)
    (cid : String) :
    accStep comps value l cid = value cid + contrib comps cid l := by
  simp only [accStep, contrib]
  rcases h1 : compOf comps l.source with _ | ca <;>
    rcases h2 : compOf comps l.target with _ | cb <;>
    simp only [h1, h2]
  · ring
  · ring
  · ring
  · by_cases hab : ca = cb
    · subst hab
      rw [if_pos rfl, if_pos rfl]
      by_cases hca : cid = ca
      · subst hca
        simp [upd]
      · simp [upd, hca, Ne.symm hca]
    · rw [if_neg hab, if_neg hab]
      by_cases hca : cid = ca <;> by_cases hcb : cid = cb
      · exact absurd (hca ▸ hcb) hab
      · subst hca
        simp [upd, hcb, Ne.symm hcb, Ne.symm hab]
      · subst hcb
        simp [upd, hca, Ne.symm hca, hab]
      · simp [upd, hca, hcb, Ne.symm hca, Ne.symm hcb]

theorem accValues_point (comps : List Comp) (links : List Link) (cid : String) :
    accValues comps links cid = (links.map (contrib comps cid)).sum := by
  suffices h : ∀ v0 : String → ℚ, (links.foldl (accStep comps) v0) cid
      = v0 cid + (links.map (contrib comps cid)).sum by
    simpa [accValues] using h (fun _ => 0)
  induction links with
  | nil => intro v0; simp
  | cons l ls ih =>
    intro v0
    rw [List.foldl_cons, ih, accStep_point, List.map_cons, List.sum_cons]
    ring

theorem compOf_some {comps : List Comp} {x cid : String}
    (h : compOf comps x = some cid) : ∃ c ∈ comps, c.id = cid ∧ x ∈ c.ids := by
  rw [compOf] at h
  rcases hf : comps.find? (fun c => c.ids.contains x) with _ | c
  · rw [hf] at h
    simp at h
  · rw [hf] at h
    simp only [Option.map_some'] at h
    have hcid : c.id = cid := by simpa using h
    exact ⟨c, List.mem_of_find?_eq_some hf, hcid,
      mem_of_contains (by simpa using List.find?_some hf)⟩

theorem compOf_none {comps : List Comp} {x : String}
    (h : ∀ c ∈ comps, x ∉ c.ids) : compOf comps x = none := by
  have hf : comps.find? (fun c => c.ids.contains x) = none := by
    rw [List.find?_eq_none]
    intro c hc
    simpa using h c hc
  rw [compOf, hf]
  rfl

theorem compOf_eq_of_mem {comps : List Comp}
    (hu : ∀ c ∈ comps, ∀ c' ∈ comps, ∀ x, x ∈ c.ids → x ∈ c'.ids → c = c')
    {c : Comp} {x : String} (hc : c ∈ comps) (hx : x ∈ c.ids) :
    compOf comps x = some c.id := by
  rcases hf : comps.find? (fun d => d.ids.contains x) with _ | d
  · exfalso
    rw [List.find?_eq_none] at hf
    have hcontra := hf c hc
    simp at hcontra
    exact hcontra hx
  · have hdmem := List.mem_of_find?_eq_some hf
    have hdx : x ∈ d.ids := mem_of_contains (by simpa using List.find?_some hf)
    have hdc : d = c := hu d hdmem c hc x hdx hx
    rw [compOf, hf, hdc]
    rfl

theorem sum_map_add (f g : Comp → ℚ) (l : List Comp) :
    (l.map (fun x => f x + g x)).sum = (l.map f).sum + (l.map g).sum := by
  induction l with
  | nil => simp
  | cons a l ih =>
    simp only [List.map_cons, List.sum_cons, ih]
    ring

theorem sum_if_single {comps : List Comp} (hnd : ((comps.map (·.id)).Nodup))
    {cid : String} (hmem : ∃ c ∈ comps, c.id = cid) (w : ℚ) :
    (comps.map (fun c => if cid = c.id then w else 0)).sum = w := by
  induction comps with
  | nil => simp at hmem
  | cons c0 cs ih =>
    have hnd2 := hnd
    rw [List.map_cons, List.nodup_cons] at hnd2
    obtain ⟨h0, hnd'⟩ := hnd2
    obtain ⟨c, hcmem, hcid⟩ := hmem
    rcases List.mem_cons.mp hcmem with rfl | hcmem'
    · rw [List.map_cons, List.sum_cons, if_pos hcid.symm]
      have hz : (cs.map (fun c => if cid = c.id then w else 0))
          = cs.map (fun _ => 0) := by
        apply List.map_congr_left
        intro d hd
        rw [if_neg]
        intro hdc
        exact h0 (hcid ▸ hdc ▸ List.mem_map.mpr ⟨d, hd, rfl⟩)
      rw [hz]
      simp
    · rw [List.map_cons, List.sum_cons, if_neg, ih hnd' ⟨c, hcmem', hcid⟩, zero_add]
      intro h0id
      exact h0 (h0id ▸ hcid ▸ List.mem_map.mpr ⟨c, hcmem', rfl⟩)

theorem contrib_sum_comps {comps : List Comp} (hnd : ((comps.map (·.id)).Nodup))
    (l : Link) :
    (comps.map (fun c => contrib comps c.id l)).sum
      = if bothMapped comps l then l.w else 0 := by
  rcases h1 : compOf comps l.source with _ | ca <;>
    rcases h2 : compOf comps l.target with _ | cb
  · simp [contrib, bothMapped, h1, h2]
  · simp [contrib, bothMapped, h1, h2]
  · simp [contrib, bothMapped, h1, h2]
  · have hmema : ∃ c ∈ comps, c.id = ca := by
      obtain ⟨c, hc, hcid, _⟩ := compOf_some h1
      exact ⟨c, hc, hcid⟩
    have hmemb : ∃ c ∈ comps, c.id = cb := by
      obtain ⟨c, hc, hcid, _⟩ := compOf_some h2
      exact ⟨c, hc, hcid⟩
    by_cases hab : ca = cb
    · subst hab
      have : (comps.map (fun c => contrib comps c.id l))
          = comps.map (fun c => if ca = c.id then l.w else 0) := by
        apply List.map_congr_left
        intro d _
        simp [contrib, h1, h2]
      rw [this, sum_if_single hnd hmema, if_pos]
      simp [bothMapped, h1, h2]
    · have : (comps.map (fun c => contrib comps c.id l))
          = comps.map (fun c => (if ca = c.id then l.w / 2 else 0)
              + (if cb = c.id then l.w / 2 else 0)) := by
        apply List.map_congr_left
        intro d _
        simp [contrib, h1, h2, hab]
      rw [this, sum_map_add, sum_if_single hnd hmema, sum_if_single hnd hmemb,
        if_pos]
      · ring
      · simp [bothMapped, h1, h2]

theorem sum_comm' (f : Comp → Link → ℚ) (cs : List Comp) (ls : List Link) :
    (cs.map (fun c => (ls.map (f c)).sum)).sum
      = (ls.map (fun l => (cs.map (fun c => f c l)).sum)).sum := by
  induction cs with
  | nil => simp
  | cons c0 cs ih =>
    simp only [List.map_cons, List.sum_cons, ih]
    clear ih
    induction ls with
    | nil => simp
    | cons l ls ihl =>
      simp only [List.map_cons, List.sum_cons] at ihl ⊢
      ring_nf
      ring_nf at ihl
      linarith

theorem sum_ite_filter (p : Link → Bool) (ls : List Link) :
    (ls.map (fun l => if p l then l.w else 0)).sum
      = ((ls.filter p).map (·.w)).sum := by
  induction ls with
  | nil => simp
  | cons l ls ih =>
    by_cases hp : p l <;> simp [List.filter_cons, hp, ih]

theorem contrib_nonneg {comps : List Comp} {cid : String} {l : Link}
    (hw : 0 ≤ l.w) : 0 ≤ contrib comps cid l := by
  simp only [contrib]
  rcases h1 : compOf comps l.source with _ | ca <;>
    rcases h2 : compOf comps l.target with _ | cb <;>
    simp only [h1, h2]
  · simp
  · simp
  · simp
  · split_ifs <;> positivity

theorem accValues_nonneg {comps : List Comp} {links : List Link} {cid : String}
    (hw : ∀ l ∈ links, 0 ≤ l.w) : 0 ≤ accValues comps links cid := by
  rw [accValues_point]
  apply List.sum_nonneg
  intro x hx
  rw [List.mem_map] at hx
  obtain ⟨l, hl, rfl⟩ := hx
  exact contrib_nonneg (hw l hl)

theorem sum_map_filter_eq (p : Cluster → Bool) (f : Cluster → ℚ)
    (l : List Cluster) (h : ∀ x ∈ l, p x = false → f x = 0) :
    ((l.filter p).map f).sum = (l.map f).sum := by
  induction l with
  | nil => simp
  | cons a l ih =>
    by_cases hp : p a
    · simp [List.filter_cons, hp, ih (fun x hx => h x (List.mem_cons_of_mem _ hx))]
    · rw [List.filter_cons, if_neg (by simp [hp]),
        ih (fun x hx => h x (List.mem_cons_of_mem _ hx)), List.map_cons,
        List.sum_cons, h a (by simp) (by simp [hp]), zero_add]

theorem exists_pos_of_sum_pos {l : List ℚ} (h : 0 < l.sum) : ∃ x ∈ l, 0 < x := by
  induction l with
  | nil => simp at h
  | cons a l ih =>
    rw [List.sum_cons] at h
    by_cases ha : 0 < a
    · exact ⟨a, by simp, ha⟩
    · push_neg at ha
      have hl : 0 < l.sum := by linarith
      obtain ⟨x, hx, hxp⟩ := ih hl
      exact ⟨x, List.mem_cons_of_mem _ hx, hxp⟩

/-! ## Concrete evaluation infrastructure -/

theorem groupClusters_of_gNodes_nil {nodes : List Node} {g : String}
    (links : List Link) (th : ℚ) (h : gNodesOf nodes g = []) :
    groupClusters nodes links th g = [] := by
  simp [groupClusters, h, groupComps, nameComps]

theorem buildComps_single_group (nodes : List Node) (links : List Link) (th : ℚ)
    (h : ∀ n ∈ nodes, n.baseGroup = "Food") :
    buildComps nodes links th = groupClusters nodes links th "Food" := by
  have hg : ∀ g, g ≠ "Food" → gNodesOf nodes g = [] := by
    intro g hne
    have hf : nodes.filter (fun n => n.baseGroup == g) = [] := by
      refine List.filter_eq_nil_iff.2 ?_
      intro n hn
      simp [h n hn, Ne.symm hne]
    simp [gNodesOf, hf]
  simp [buildComps, GROUPS, List.flatMap_cons, List.flatMap_nil,
    groupClusters_of_gNodes_nil links th (hg "Health" (by decide)),
    groupClusters_of_gNodes_nil links th (hg "Emotion" (by decide)),
    groupClusters_of_gNodes_nil links th (hg "Play" (by decide)),
    groupClusters_of_gNodes_nil links th (hg "Safety" (by decide)),
    groupClusters_of_gNodes_nil links th (hg "Learning" (by decide)),
    groupClusters_of_gNodes_nil links th (hg "Body" (by decide)),
    groupClusters_of_gNodes_nil links th (hg "Routine" (by decide)),
    groupClusters_of_gNodes_nil links th (hg "Social" (by decide)),
    groupClusters_of_gNodes_nil links th (hg "Rest" (by decide))]

/-! ## Scenario A evaluated -/

theorem exA_gLinks : gLinksOf exNodesA exLinksA (1/2) "Food" = [⟨"a", "b", 0.8⟩] := by
  norm_num [gLinksOf, gNodesOf, exNodesA, exLinksA, List.filter]

theorem exA_comps : buildComps exNodesA exLinksA (1/2) = exCompsA := by
  rw [buildComps_single_group _ _ _ (by decide)]
  simp only [groupClusters, exA_gLinks]
  decide

theorem exA_compOf_a : compOf exCompsA "a" = some "Food • 1" := by decide
theorem exA_compOf_b : compOf exCompsA "b" = some "Food • 1" := by decide
theorem exA_compOf_c : compOf exCompsA "c" = some "Food • 2" := by decide

theorem exA_values :
    accValues exCompsA exLinksA "Food • 1" = 19/20 ∧
    accValues exCompsA exLinksA "Food • 2" = 3/20 := by
  norm_num [accValues, accStep, exLinksA, List.foldl, exA_compOf_a, exA_compOf_b,
    exA_compOf_c, upd, (by decide : "Food • 1" ≠ "Food • 2"),
    (by decide : "Food • 2" ≠ "Food • 1")]

theorem exA_clusters :
    buildComponents exNodesA exLinksA (1/2) =
      [⟨"Food • 1", "Food", ["a", "b"], 19/20, ["a", "b"]⟩,
       ⟨"Food • 2", "Food", ["c"], 3/20, ["c"]⟩] := by
  have h1 := exA_values.1
  have h2 := exA_values.2
  simp only [buildComponents, exA_comps, exCompsA, List.map_cons, List.map_nil,
    toCluster]
  rw [show ([⟨"Food • 1", "Food", ["a", "b"]⟩, ⟨"Food • 2", "Food", ["c"]⟩]
      : List Comp) = exCompsA from rfl]
  norm_num [h1, h2, (by decide : itemsOf exNodesA ["a", "b"] = ["a", "b"]),
    (by decide : itemsOf exNodesA ["c"] = ["c"])]

/-! ## Scenario C evaluated -/

theorem exC_gLinks : gLinksOf exNodesC exLinksC (1/2) "Food"
    = [⟨"a", "b", 0.9⟩, ⟨"c", "d", 0.9⟩] := by
  norm_num [gLinksOf, gNodesOf, exNodesC, exLinksC, List.filter]

theorem exC_comps : buildComps exNodesC exLinksC (1/2) = exCompsC := by
  rw [buildComps_single_group _ _ _ (by decide)]
  simp only [groupClusters, exC_gLinks]
  decide

theorem exC_compOf_a : compOf exCompsC "a" = some "Food • 1" := by decide
theorem exC_compOf_b : compOf exCompsC "b" = some "Food • 1" := by decide
theorem exC_compOf_c : compOf exCompsC "c" = some "Food • 2" := by decide
theorem exC_compOf_d : compOf exCompsC "d" = some "Food • 2" := by decide

theorem exC_values :
    accValues exCompsC exLinksC "Food • 1" = 19/20 ∧
    accValues exCompsC exLinksC "Food • 2" = 19/20 := by
  norm_num [accValues, accStep, exLinksC, List.foldl, exC_compOf_a, exC_compOf_b,
    exC_compOf_c, exC_compOf_d, upd, (by decide : "Food • 1" ≠ "Food • 2"),
    (by decide : "Food • 2" ≠ "Food • 1")]

theorem exC_clusters :
    buildComponents exNodesC exLinksC (1/2) =
      [⟨"Food • 1", "Food", ["a", "b"], 19/20, ["a", "b"]⟩,
       ⟨"Food • 2", "Food", ["c", "d"], 19/20, ["c", "d"]⟩] := by
  have h1 := exC_values.1
  have h2 := exC_values.2
  simp only [buildComponents, exC_comps, exCompsC, List.map_cons, List.map_nil,
    toCluster]
  rw [show ([⟨"Food • 1", "Food", ["a", "b"]⟩, ⟨"Food • 2", "Food", ["c", "d"]⟩]
      : List Comp) = exCompsC from rfl]
  norm_num [h1, h2, (by decide : itemsOf exNodesC ["a", "b"] = ["a", "b"]),
    (by decide : itemsOf exNodesC ["c", "d"] = ["c", "d"])]

/-! ## Editor lemmas -/

theorem saveWeight_forall₂ (links : List DLink) (assocId : String) (v : ℚ) :
    List.Forall₂ (fun l l' : DLink =>
      l'.id = l.id ∧ l'.source = l.source ∧ l'.target = l.target ∧
        (matchesAssoc l assocId = true → l'.weight = v) ∧
        (matchesAssoc l assocId = false → l' = l))
      links (saveWeight links assocId v) := by
  induction links with
  | nil => exact List.Forall₂.nil
  | cons l ls ih =>
    refine List.Forall₂.cons ?_ ih
    by_cases hm : matchesAssoc l assocId = true
    · simp [saveWeight, hm]
    · have hm' : matchesAssoc l assocId = false := by
        cases h : matchesAssoc l assocId
        · rfl
        · exact absurd h hm
      simp [saveWeight, hm']

/-! ## Helpers for the threshold-monotonicity claim -/

theorem contrib_pos_cases {comps : List Comp} {cid : String} {l : Link}
    (h : 0 < contrib comps cid l) :
    0 < l.w ∧ ∃ ca cb, compOf comps l.source = some ca ∧
      compOf comps l.target = some cb ∧ (ca = cid ∨ cb = cid) := by
  simp only [contrib] at h
  rcases hs : compOf comps l.source with _ | ca <;>
    rcases ht : compOf comps l.target with _ | cb <;>
    simp only [hs, ht] at h
  · norm_num at h
  · norm_num at h
  · norm_num at h
  · by_cases hab : ca = cb
    · rw [if_pos hab] at h
      by_cases hc : ca = cid
      · rw [if_pos hc] at h
        exact ⟨h, ca, cb, rfl, rfl, Or.inl hc⟩
      · rw [if_neg hc] at h
        norm_num at h
    · rw [if_neg hab] at h
      by_cases hc1 : ca = cid <;> by_cases hc2 : cb = cid
      · exact ⟨by rw [if_pos hc1, if_pos hc2] at h; linarith, ca, cb, rfl, rfl, Or.inl hc1⟩
      · rw [if_pos hc1, if_neg hc2, add_zero] at h
        exact ⟨by linarith, ca, cb, rfl, rfl, Or.inl hc1⟩
      · rw [if_neg hc1, if_pos hc2, zero_add] at h
        exact ⟨by linarith, ca, cb, rfl, rfl, Or.inr hc2⟩
      · rw [if_neg hc1, if_neg hc2] at h
        norm_num at h

theorem contrib_pos_at {comps : List Comp} {cid : String} {l : Link}
    (hs : compOf comps l.source = some cid ∨ compOf comps l.target = some cid)
    (hs2 : (compOf comps l.source).isSome = true)
    (ht2 : (compOf comps l.target).isSome = true)
    (hw : 0 < l.w) : 0 < contrib comps cid l := by
  rcases hhs : compOf comps l.source with _ | ca
  · rw [hhs] at hs2
    simp at hs2
  rcases hht : compOf comps l.target with _ | cb
  · rw [hht] at ht2
    simp at ht2
  simp only [contrib, hhs, hht]
  by_cases hab : ca = cb
  · rw [if_pos hab]
    rcases hs with h | h
    · rw [hhs] at h
      injection h with h
      rw [if_pos h]
      exact hw
    · rw [hht] at h
      injection h with h
      rw [if_pos (hab.trans h)]
      exact hw
  · rw [if_neg hab]
    rcases hs with h | h
    · rw [hhs] at h
      injection h with h
      rw [if_pos h]
      have h2 : 0 ≤ (if cb = cid then l.w / 2 else 0) := by
        split_ifs <;> linarith
      linarith
    · rw [hht] at h
      injection h with h
      rw [if_pos h]
      have h2 : 0 ≤ (if ca = cid then l.w / 2 else 0) := by
        split_ifs <;> linarith
      linarith

theorem mapped_group {nodes : List Node} {links : List Link} {th : ℚ}
    {x cid : String} (h : compOf (buildComps nodes links th) x = some cid) :
    ∃ g ∈ GROUPS, x ∈ gNodesOf nodes g := by
  obtain ⟨c, hc, _, hx⟩ := compOf_some h
  obtain ⟨g, hg, hcg⟩ := mem_buildComps.mp hc
  exact ⟨g, hg, groupClusters_subset hcg x hx⟩

theorem compOf_covered {nodes : List Node} {links : List Link} {t : ℚ}
    {g x : String} (hnodes : (nodes.map (·.id)).Nodup) (hg : g ∈ GROUPS)
    (hx : x ∈ gNodesOf nodes g) :
    ∃ D ∈ buildComps nodes links t, x ∈ D.ids ∧
      compOf (buildComps nodes links t) x = some D.id := by
  obtain ⟨c, hc1, hc2⟩ := (groupClusters_spec nodes links t g hnodes).2.1 x hx
  have hmem : c ∈ buildComps nodes links t := mem_buildComps.mpr ⟨g, hg, hc1⟩
  exact ⟨c, hmem, hc2, compOf_eq_of_mem (buildComps_unique hnodes) hmem hc2⟩

theorem accValues_pos_of_link {nodes : List Node} {links : List Link} {t : ℚ}
    (hw : ∀ l ∈ links, 0 ≤ l.w) {D : Comp} {l : Link} (hl : l ∈ links)
    (hpos : 0 < contrib (buildComps nodes links t) D.id l) :
    0 < accValues (buildComps nodes links t) links D.id := by
  rw [accValues_point]
  have hmem : contrib (buildComps nodes links t) D.id l
      ∈ links.map (contrib (buildComps nodes links t) D.id) :=
    List.mem_map.mpr ⟨l, hl, rfl⟩
  have hler := List.single_le_sum (l := links.map (contrib (buildComps nodes links t) D.id))
    (fun x hx => by
      obtain ⟨l', hl', rfl⟩ := List.mem_map.mp hx
      exact contrib_nonneg (hw l' hl')) _ hmem
  linarith

/-! ## Claim theorems -/

/-- C1: the aggregation pass of `buildComponents` ranges over the complete
link list and looks only at which clusters the endpoints map to: a link
whose endpoints map to the same cluster contributes its full weight, a link
whose endpoints map to two different clusters contributes exactly half to
each (`contrib`), regardless of the link's own weight versus the threshold;
on Scenario C (nodes a,b,c,d in one group, edges (a,b,0.9), (c,d,0.9),
(b,c,0.1), threshold 0.5) the clusters are {a,b} and {c,d} and the
below-threshold edge (b,c,0.1) adds 0.05 to each cluster's weight. -/
theorem C1_aggregation_all_links_split :
    (∀ (nodes : List Node) (links : List Link) (th : ℚ) (cid : String),
      accValues (buildComps nodes links th) links cid
        = (links.map (contrib (buildComps nodes links th) cid)).sum) ∧
    buildComponents exNodesC exLinksC (1/2)
      = [⟨"Food • 1", "Food", ["a", "b"], 9/10 + 1/20, ["a", "b"]⟩,
         ⟨"Food • 2", "Food", ["c", "d"], 9/10 + 1/20, ["c", "d"]⟩] := by
  refine ⟨fun nodes links th cid => accValues_point _ _ _, ?_⟩
  rw [exC_clusters]
  norm_num

/-- C2 counterexample: on Scenario A (nodes a,b,c in one group, edges
(a,b,0.8), (b,c,0.3), threshold 0.5) the clusterer returns TWO visible
clusters — the singleton {c} receives half of the weight of edge (b,c)
(0.15 > 0) and is not dropped — contradicting the claimed single visible
cluster of weight 0.8. -/
theorem C2_counterexample :
    (buildComponents exNodesA exLinksA (1/2)).length = 2 ∧
    (buildComponents exNodesA exLinksA (1/2)).map (fun c => c.value)
      = [19/20, 3/20] := by
  rw [exA_clusters]
  exact ⟨rfl, rfl⟩

/-- C2 amended: on Scenario A the clusterer returns two visible clusters:
{a,b} with aggregate weight 0.95 (0.8 plus half of the 0.3 cross edge) and
{c} with aggregate weight 0.15 (the other half), because the aggregation
pass splits every cross-cluster edge between the two sides regardless of
the threshold. -/
theorem C2_amended :
    buildComponents exNodesA exLinksA (1/2)
      = [⟨"Food • 1", "Food", ["a", "b"], 4/5 + 3/20, ["a", "b"]⟩,
         ⟨"Food • 2", "Food", ["c"], 3/20, ["c"]⟩] := by
  rw [exA_clusters]
  norm_num

/-- C3: raising the threshold only splits clusters: every visible cluster
at the higher threshold t' has its member set contained in a single visible
cluster of the same group at any lower threshold t. -/
theorem C3_threshold_monotone :
    ∀ (nodes : List Node) (links : List Link) (t t' : ℚ),
      (nodes.map (·.id)).Nodup →
      (∀ n ∈ nodes, n.baseGroup ∈ GROUPS) →
      (∀ l ∈ links, 0 ≤ l.w ∧ l.w ≤ 1) →
      t ≤ t' →
      ∀ C' ∈ buildComponents nodes links t',
        ∃ D ∈ buildComponents nodes links t,
          D.base = C'.base ∧ ∀ x ∈ C'.ids, x ∈ D.ids := by
  intro nodes links t t' hnodes hgroups hw hle C' hC'
  simp only [buildComponents] at hC'
  obtain ⟨hmap, hvalpos⟩ := List.mem_filter.mp hC'
  obtain ⟨c', hc'mem, rfl⟩ := List.mem_map.mp hmap
  have hval' : 0 < accValues (buildComps nodes links t') links c'.id := by
    simpa [toCluster] using hvalpos
  obtain ⟨gb, hgb, hcg'⟩ := mem_buildComps.mp hc'mem
  have hbase' : c'.base = gb := groupClusters_base hcg'
  obtain ⟨r', hr'univ, hr'iff⟩ :=
    (groupClusters_spec nodes links t' gb hnodes).1 c' hcg'
  obtain ⟨D0, hD0mem, hr'D0⟩ :=
    (groupClusters_spec nodes links t gb hnodes).2.1 r' hr'univ
  obtain ⟨r0, hr0univ, hr0iff⟩ :=
    (groupClusters_spec nodes links t gb hnodes).1 D0 hD0mem
  have hD0comps : D0 ∈ buildComps nodes links t :=
    mem_buildComps.mpr ⟨gb, hgb, hD0mem⟩
  have hsub : ∀ x ∈ c'.ids, x ∈ D0.ids := by
    intro x hx
    have hrx := reach_mono (fun a b h => adjRel_mono hle h) ((hr'iff x).mp hx)
    exact (hr0iff x).mpr (reach_trans ((hr0iff r').mp hr'D0) hrx)
  rw [accValues_point] at hval'
  obtain ⟨y, hymem, hypos⟩ := exists_pos_of_sum_pos hval'
  obtain ⟨l, hl, rfl⟩ := List.mem_map.mp hymem
  obtain ⟨hlw, ca, cb, hsa, htb, hcc⟩ := contrib_pos_cases hypos
  have hinj := List.inj_on_of_nodup_map
    (@buildComps_id_nodup nodes links t' hnodes)
  have hPoint : ∀ e : String,
      compOf (buildComps nodes links t') e = some c'.id → e ∈ c'.ids := by
    intro e he
    obtain ⟨cS, hcS, hcSid, heS⟩ := compOf_some he
    have heq : cS = c' := hinj hcS hc'mem (by rw [hcSid])
    exact heq ▸ heS
  have hmap_t : ∀ e : String,
      (compOf (buildComps nodes links t') e).isSome = true →
      ∃ D ∈ buildComps nodes links t, e ∈ D.ids ∧
        compOf (buildComps nodes links t) e = some D.id := by
    intro e he
    rcases hce : compOf (buildComps nodes links t') e with _ | cide
    · rw [hce] at he
      simp at he
    · obtain ⟨g2, hg2, hug2⟩ := mapped_group hce
      exact compOf_covered hnodes hg2 hug2
  obtain ⟨DS, hDS, hDSids, hDSco⟩ := hmap_t l.source (by rw [hsa]; rfl)
  obtain ⟨DT, hDT, hDTids, hDTco⟩ := hmap_t l.target (by rw [htb]; rfl)
  have hD0pos : 0 < contrib (buildComps nodes links t) D0.id l := by
    refine contrib_pos_at ?_ ?_ ?_ hlw
    · rcases hcc with h | h
      · left
        have hsrcC : l.source ∈ c'.ids := hPoint _ (by rw [hsa, h])
        exact compOf_eq_of_mem (buildComps_unique hnodes) hD0comps
          (hsub _ hsrcC)
      · right
        have htgtC : l.target ∈ c'.ids := hPoint _ (by rw [htb, h])
        exact compOf_eq_of_mem (buildComps_unique hnodes) hD0comps
          (hsub _ htgtC)
    · rw [hDSco]
      rfl
    · rw [hDTco]
      rfl
  have hD0val : 0 < accValues (buildComps nodes links t) links D0.id :=
    accValues_pos_of_link (fun l hl => (hw l hl).1) hl hD0pos
  refine ⟨toCluster nodes links (buildComps nodes links t) D0, ?_, ?_, ?_⟩
  · simp only [buildComponents]
    refine List.mem_filter.mpr ⟨List.mem_map.mpr ⟨D0, hD0comps, rfl⟩, ?_⟩
    simpa [toCluster] using hD0val
  · have hb0 : D0.base = gb := groupClusters_base hD0mem
    simp [toCluster, hb0, hbase']
  · intro x hx
    simp only [toCluster] at hx ⊢
    exact hsub x hx

/-- Witness for C3 at Scenario A (thresholds 1/4 ≤ 1/2), instantiated at the
visible cluster {a,b}. -/
theorem C3_threshold_monotone_witness :
    ((exNodesA.map (·.id)).Nodup ∧
     (∀ n ∈ exNodesA, n.baseGroup ∈ GROUPS) ∧
     (∀ l ∈ exLinksA, 0 ≤ l.w ∧ l.w ≤ 1) ∧
     (1/4 : ℚ) ≤ 1/2 ∧
     (⟨"Food • 1", "Food", ["a", "b"], 19/20, ["a", "b"]⟩ : Cluster)
        ∈ buildComponents exNodesA exLinksA (1/2)) ∧
    ∃ D ∈ buildComponents exNodesA exLinksA (1/4),
      D.base = (⟨"Food • 1", "Food", ["a", "b"], 19/20, ["a", "b"]⟩ : Cluster).base ∧
      ∀ x ∈ (⟨"Food • 1", "Food", ["a", "b"], 19/20, ["a", "b"]⟩ : Cluster).ids,
        x ∈ D.ids := by
  have h1 : (exNodesA.map (·.id)).Nodup := by decide
  have h2 : ∀ n ∈ exNodesA, n.baseGroup ∈ GROUPS := by decide
  have h3 : ∀ l ∈ exLinksA, 0 ≤ l.w ∧ l.w ≤ 1 := by
    intro l hl
    fin_cases hl <;> norm_num [exLinksA]
  have h4 : (1/4 : ℚ) ≤ 1/2 := by norm_num
  have hmem : (⟨"Food • 1", "Food", ["a", "b"], 19/20, ["a", "b"]⟩ : Cluster)
      ∈ buildComponents exNodesA exLinksA (1/2) := by
    rw [exA_clusters]
    exact List.mem_cons_self _ _
  exact ⟨⟨h1, h2, h3, h4, hmem⟩,
    C3_threshold_monotone exNodesA exLinksA (1/4) (1/2) h1 h2 h3 h4 _ hmem⟩

/-- C4: conservation at threshold 0 — the sum of the visible clusters'
aggregate weights equals the sum of the weights of the links whose two
endpoints both map to some component, and every dropped component carries
aggregate weight exactly 0. -/
theorem C4_conservation :
    ∀ (nodes : List Node) (links : List Link),
      (nodes.map (·.id)).Nodup →
      (∀ l ∈ links, 0 ≤ l.w ∧ l.w ≤ 1) →
      ((buildComponents nodes links 0).map (fun c => c.value)).sum
        = ((links.filter
            (fun l => bothMapped (buildComps nodes links 0) l)).map (·.w)).sum
      ∧ ∀ c ∈ buildComps nodes links 0,
          ¬ 0 < accValues (buildComps nodes links 0) links c.id →
          accValues (buildComps nodes links 0) links c.id = 0 := by
  intro nodes links hnodes hw
  have hw0 : ∀ l ∈ links, 0 ≤ l.w := fun l hl => (hw l hl).1
  constructor
  · have hbc : buildComponents nodes links 0
        = ((buildComps nodes links 0).map
            (toCluster nodes links (buildComps nodes links 0))).filter
          (fun c => decide (0 < c.value)) := rfl
    rw [hbc]
    have hdrop : ∀ x ∈ (buildComps nodes links 0).map
        (toCluster nodes links (buildComps nodes links 0)),
        (decide (0 < x.value)) = false → x.value = 0 := by
      intro x hx hdec
      obtain ⟨c, _, rfl⟩ := List.mem_map.mp hx
      have hnn : 0 ≤ accValues (buildComps nodes links 0) links c.id :=
        accValues_nonneg hw0
      have hnpos : ¬ 0 < (toCluster nodes links (buildComps nodes links 0) c).value := by
        simpa using hdec
      simp only [toCluster] at hnpos ⊢
      linarith
    rw [sum_map_filter_eq _ _ _ hdrop]
    have h2 : (((buildComps nodes links 0).map
          (toCluster nodes links (buildComps nodes links 0))).map (fun c => c.value))
        = (buildComps nodes links 0).map
            (fun c => accValues (buildComps nodes links 0) links c.id) := by
      rw [List.map_map]
      rfl
    rw [h2]
    have h3 : (buildComps nodes links 0).map
          (fun c => accValues (buildComps nodes links 0) links c.id)
        = (buildComps nodes links 0).map
            (fun c => (links.map (contrib (buildComps nodes links 0) c.id)).sum) := by
      apply List.map_congr_left
      intro c _
      exact accValues_point _ _ _
    rw [h3, sum_comm' (fun c l => contrib (buildComps nodes links 0) c.id l)]
    have h4 : links.map (fun l => ((buildComps nodes links 0).map
          (fun c => contrib (buildComps nodes links 0) c.id l)).sum)
        = links.map (fun l => if bothMapped (buildComps nodes links 0) l
            then l.w else 0) := by
      apply List.map_congr_left
      intro l _
      exact contrib_sum_comps (buildComps_id_nodup hnodes) l
    rw [h4, sum_ite_filter]
  · intro c _ hneg
    have hnn := @accValues_nonneg (buildComps nodes links 0) links c.id hw0
    linarith

/-- Witness for C4 on Scenario A. -/
theorem C4_conservation_witness :
    ((exNodesA.map (·.id)).Nodup ∧ (∀ l ∈ exLinksA, 0 ≤ l.w ∧ l.w ≤ 1)) ∧
    (((buildComponents exNodesA exLinksA 0).map (fun c => c.value)).sum
        = ((exLinksA.filter
            (fun l => bothMapped (buildComps exNodesA exLinksA 0) l)).map (·.w)).sum
      ∧ ∀ c ∈ buildComps exNodesA exLinksA 0,
          ¬ 0 < accValues (buildComps exNodesA exLinksA 0) exLinksA c.id →
          accValues (buildComps exNodesA exLinksA 0) exLinksA c.id = 0) := by
  have h1 : (exNodesA.map (·.id)).Nodup := by decide
  have h2 : ∀ l ∈ exLinksA, 0 ≤ l.w ∧ l.w ≤ 1 := by
    intro l hl
    fin_cases hl <;> norm_num [exLinksA]
  exact ⟨⟨h1, h2⟩, C4_conservation exNodesA exLinksA h1 h2⟩

/-- C5: at any threshold the components partition the node set — every node
lies in exactly one component and distinct components are disjoint — while
the visible output keeps only clusters of strictly positive aggregate
weight, so a node whose component has weight 0 appears in no visible
cluster. -/
theorem C5_partition :
    ∀ (nodes : List Node) (links : List Link) (th : ℚ),
      (nodes.map (·.id)).Nodup →
      (∀ n ∈ nodes, n.baseGroup ∈ GROUPS) →
      (∀ n ∈ nodes, ∃ c, c ∈ buildComps nodes links th ∧ n.id ∈ c.ids ∧
        ∀ c' ∈ buildComps nodes links th, n.id ∈ c'.ids → c' = c) ∧
      List.Pairwise (fun c d => ∀ x ∈ c.ids, x ∉ d.ids)
        (buildComps nodes links th) ∧
      (∀ C ∈ buildComponents nodes links th, 0 < C.value) ∧
      (∀ n ∈ nodes, ∀ c ∈ buildComps nodes links th, n.id ∈ c.ids →
        accValues (buildComps nodes links th) links c.id = 0 →
        ∀ C ∈ buildComponents nodes links th, n.id ∉ C.ids) := by
  intro nodes links th hnodes hgroups
  refine ⟨?_, buildComps_pairwise hnodes, ?_, ?_⟩
  · intro n hn
    obtain ⟨c, hc, hcid⟩ := buildComps_cover hnodes hgroups n hn
    exact ⟨c, hc, hcid,
      fun c' hc' hcid' => buildComps_unique hnodes c' hc' c hc _ hcid' hcid⟩
  · intro C hC
    simp only [buildComponents] at hC
    obtain ⟨_, hval⟩ := List.mem_filter.mp hC
    simpa using hval
  · intro n hn c hc hcid hval C hC hCid
    simp only [buildComponents] at hC
    obtain ⟨hmap, hvalpos⟩ := List.mem_filter.mp hC
    obtain ⟨c0, hc0, rfl⟩ := List.mem_map.mp hmap
    simp only [toCluster] at hCid hvalpos
    have hceq : c0 = c := buildComps_unique hnodes c0 hc0 c hc _ hCid hcid
    rw [hceq] at hvalpos
    simp only [hval] at hvalpos
    simp at hvalpos

/-- Witness for C5 on Scenario A at threshold 0.5. -/
theorem C5_partition_witness :
    ((exNodesA.map (·.id)).Nodup ∧ (∀ n ∈ exNodesA, n.baseGroup ∈ GROUPS)) ∧
    ((∀ n ∈ exNodesA, ∃ c, c ∈ buildComps exNodesA exLinksA (1/2) ∧
        n.id ∈ c.ids ∧
        ∀ c' ∈ buildComps exNodesA exLinksA (1/2), n.id ∈ c'.ids → c' = c) ∧
      List.Pairwise (fun c d => ∀ x ∈ c.ids, x ∉ d.ids)
        (buildComps exNodesA exLinksA (1/2)) ∧
      (∀ C ∈ buildComponents exNodesA exLinksA (1/2), 0 < C.value) ∧
      (∀ n ∈ exNodesA, ∀ c ∈ buildComps exNodesA exLinksA (1/2), n.id ∈ c.ids →
        accValues (buildComps exNodesA exLinksA (1/2)) exLinksA c.id = 0 →
        ∀ C ∈ buildComponents exNodesA exLinksA (1/2), n.id ∉ C.ids)) := by
  have h1 : (exNodesA.map (·.id)).Nodup := by decide
  have h2 : ∀ n ∈ exNodesA, n.baseGroup ∈ GROUPS := by decide
  exact ⟨⟨h1, h2⟩, C5_partition exNodesA exLinksA (1/2) h1 h2⟩

/-- C6: no cluster ever mixes groups — every member of a visible cluster is
the id of a node whose group is the cluster's base group, so two nodes with
different group labels are never members of the same cluster, whatever the
weights of the links between them. -/
theorem C6_no_cross_group :
    ∀ (nodes : List Node) (links : List Link) (th : ℚ),
      (nodes.map (·.id)).Nodup →
      ∀ C ∈ buildComponents nodes links th,
        (∀ x ∈ C.ids, ∀ n ∈ nodes, n.id = x → n.baseGroup = C.base) ∧
        (∀ x ∈ C.ids, ∀ y ∈ C.ids, ∀ nx ∈ nodes, ∀ ny ∈ nodes,
          nx.id = x → ny.id = y → nx.baseGroup = ny.baseGroup) := by
  intro nodes links th hnodes C hC
  simp only [buildComponents] at hC
  obtain ⟨hmap, _⟩ := List.mem_filter.mp hC
  obtain ⟨c, hc, rfl⟩ := List.mem_map.mp hmap
  obtain ⟨g, _, hcg⟩ := mem_buildComps.mp hc
  have hbase : c.base = g := groupClusters_base hcg
  have hmain : ∀ x ∈ (toCluster nodes links (buildComps nodes links th) c).ids,
      ∀ n ∈ nodes, n.id = x →
        n.baseGroup = (toCluster nodes links (buildComps nodes links th) c).base := by
    intro x hx n hn hnx
    simp only [toCluster] at hx ⊢
    have hxg : x ∈ gNodesOf nodes g := groupClusters_subset hcg x hx
    obtain ⟨m, hm, hmg, hmid⟩ := gNodesOf_mem_iff.mp hxg
    have hnm : n = m := id_inj hnodes n hn m hm (by rw [hnx, hmid])
    rw [hnm, hmg, hbase]
  exact ⟨hmain, fun x hx y hy nx hnx ny hny hx1 hy1 =>
    (hmain x hx nx hnx hx1).trans (hmain y hy ny hny hy1).symm⟩

/-- Witness for C6 on Scenario A, instantiated at the cluster {a,b}. -/
theorem C6_no_cross_group_witness :
    ((exNodesA.map (·.id)).Nodup ∧
     (⟨"Food • 1", "Food", ["a", "b"], 19/20, ["a", "b"]⟩ : Cluster)
        ∈ buildComponents exNodesA exLinksA (1/2)) ∧
    ((∀ x ∈ (⟨"Food • 1", "Food", ["a", "b"], 19/20, ["a", "b"]⟩ : Cluster).ids,
        ∀ n ∈ exNodesA, n.id = x →
          n.baseGroup
            = (⟨"Food • 1", "Food", ["a", "b"], 19/20, ["a", "b"]⟩ : Cluster).base) ∧
     (∀ x ∈ (⟨"Food • 1", "Food", ["a", "b"], 19/20, ["a", "b"]⟩ : Cluster).ids,
        ∀ y ∈ (⟨"Food • 1", "Food", ["a", "b"], 19/20, ["a", "b"]⟩ : Cluster).ids,
        ∀ nx ∈ exNodesA, ∀ ny ∈ exNodesA,
          nx.id = x → ny.id = y → nx.baseGroup = ny.baseGroup)) := by
  have h1 : (exNodesA.map (·.id)).Nodup := by decide
  have hmem : (⟨"Food • 1", "Food", ["a", "b"], 19/20, ["a", "b"]⟩ : Cluster)
      ∈ buildComponents exNodesA exLinksA (1/2) := by
    rw [exA_clusters]
    exact List.mem_cons_self _ _
  exact ⟨⟨h1, hmem⟩, C6_no_cross_group exNodesA exLinksA (1/2) h1 _ hmem⟩

/-- C7: component naming — a component spanning its whole group keeps the
bare group name; when no component spans the group, the i-th discovered
component of the group (0-based) is named with counter i+1, counting from
1, in discovery order. -/
theorem C7_naming :
    ∀ (nodes : List Node) (links : List Link) (th : ℚ) (g : String),
      (nodes.map (·.id)).Nodup →
      (∀ C ∈ groupClusters nodes links th g,
        (∀ x ∈ gNodesOf nodes g, x ∈ C.ids) → C.id = g) ∧
      ((∀ C ∈ groupClusters nodes links th g,
          ¬ ∀ x ∈ gNodesOf nodes g, x ∈ C.ids) →
        ∀ (i : Nat) (C : Comp), (groupClusters nodes links th g)[i]? = some C →
          C.id = g ++ " • " ++ natRepr (i + 1)) := by
  intro nodes links th g hnodes
  have huniv : (gNodesOf nodes g).Nodup := gNodesOf_nodup hnodes
  obtain ⟨g1, g2, g3, g4, g5⟩ := groupComps_spec
    (adjRel (gLinksOf nodes links th g)) (gNodesOf nodes g)
    (adjRel_symm _) huniv (gNodesOf nodes g) [] (fun x hx => hx) (by simp)
  have hnonempty : ∀ c ∈ groupComps (adjRel (gLinksOf nodes links th g))
      (gNodesOf nodes g) (gNodesOf nodes g) [], c ≠ [] := by
    intro c hc hcnil
    obtain ⟨r, _, _, hr3⟩ := g1 c hc
    have hrc : r ∈ c := (hr3 r).mpr Relation.ReflTransGen.refl
    rw [hcnil] at hrc
    simp at hrc
  constructor
  · intro C hC hspan
    have hmem := (mem_nameComps (mem_groupClusters_unfold.mp hC)).1
    have hsing := span_singleton g4 hnonempty
      (fun c hc x hx => (g3 c hc x hx).2) hmem hspan
    have hnodupC : C.ids.Nodup := g5 C.ids hmem
    have hsubC : ∀ x ∈ C.ids, x ∈ gNodesOf nodes g :=
      fun x hx => (g3 C.ids hmem x hx).2
    have hlen : C.ids.length = (gNodesOf nodes g).length := by
      have hfin : C.ids.toFinset = (gNodesOf nodes g).toFinset := by
        apply Finset.Subset.antisymm
        · intro x hx
          rw [List.mem_toFinset] at hx ⊢
          exact hsubC x hx
        · intro x hx
          rw [List.mem_toFinset] at hx ⊢
          exact hspan x hx
      rw [← List.toFinset_card_of_nodup hnodupC,
        ← List.toFinset_card_of_nodup huniv, hfin]
    have hgc : groupClusters nodes links th g
        = nameComps g (gNodesOf nodes g).length [C.ids] 0 := by
      rw [groupClusters, hsing]
    have hnc : nameComps g (gNodesOf nodes g).length [C.ids] 0
        = [⟨g, g, C.ids⟩] := by
      simp [nameComps, hlen]
    have hCmem : C ∈ [(⟨g, g, C.ids⟩ : Comp)] := by
      rw [← hnc, ← hgc]
      exact hC
    rw [List.mem_singleton] at hCmem
    rw [hCmem]
  · intro hno i C hCi
    have hnospan : ∀ m ∈ groupComps (adjRel (gLinksOf nodes links th g))
        (gNodesOf nodes g) (gNodesOf nodes g) [],
        m.length ≠ (gNodesOf nodes g).length := by
      intro m hm hmlen
      have hmnodup := g5 m hm
      have hmsub : ∀ x ∈ m, x ∈ gNodesOf nodes g :=
        fun x hx => (g3 m hm x hx).2
      have hsp := span_of_length hmnodup huniv hmsub hmlen
      obtain ⟨c, hc1, hc2⟩ := @nameComps_surj g ((gNodesOf nodes g).length) _ 0 _ hm
      exact hno c hc1 (by rw [hc2]; exact hsp)
    have hgceq : groupClusters nodes links th g
        = nameComps g (gNodesOf nodes g).length
          (groupComps (adjRel (gLinksOf nodes links th g)) (gNodesOf nodes g)
            (gNodesOf nodes g) []) 0 := rfl
    rw [hgceq] at hCi
    have hisome : i < (groupComps (adjRel (gLinksOf nodes links th g))
        (gNodesOf nodes g) (gNodesOf nodes g) []).length := by
      have hlt : i < (nameComps g (gNodesOf nodes g).length
          (groupComps (adjRel (gLinksOf nodes links th g)) (gNodesOf nodes g)
            (gNodesOf nodes g) []) 0).length := by
        by_contra hge
        rw [List.getElem?_eq_none (by omega)] at hCi
        cases hCi
      rwa [nameComps_length] at hlt
    have hm : (groupComps (adjRel (gLinksOf nodes links th g)) (gNodesOf nodes g)
        (gNodesOf nodes g) [])[i]?
        = some ((groupComps (adjRel (gLinksOf nodes links th g)) (gNodesOf nodes g)
            (gNodesOf nodes g) []).get ⟨i, hisome⟩) := by
      rw [List.getElem?_eq_getElem hisome]
      rfl
    have hni := @nameComps_getElem_of_no_span g ((gNodesOf nodes g).length) _ 0 hnospan i _ hm
    rw [hCi] at hni
    have hCeq := Option.some.inj hni
    rw [hCeq]
    simp [Nat.zero_add]

/-- Witness for C7 on Scenario A's group: neither cluster spans the whole
group, so the clusters are named with counters 1 and 2. -/
theorem C7_naming_witness :
    (exNodesA.map (·.id)).Nodup ∧
    ((∀ C ∈ groupClusters exNodesA exLinksA (1/2) "Food",
        (∀ x ∈ gNodesOf exNodesA "Food", x ∈ C.ids) → C.id = "Food") ∧
      ((∀ C ∈ groupClusters exNodesA exLinksA (1/2) "Food",
          ¬ ∀ x ∈ gNodesOf exNodesA "Food", x ∈ C.ids) →
        ∀ (i : Nat) (C : Comp),
          (groupClusters exNodesA exLinksA (1/2) "Food")[i]? = some C →
          C.id = "Food" ++ " • " ++ natRepr (i + 1))) := by
  have h1 : (exNodesA.map (·.id)).Nodup := by decide
  exact ⟨h1, C7_naming exNodesA exLinksA (1/2) "Food" h1⟩

/-- C8: error handling of the clusterer — a link whose source or target id
is not a node id is silently skipped (removing it from the link list leaves
the output unchanged, since it can neither enter any group's membership
links nor contribute any aggregate weight), and an empty node list or an
empty link list yields an empty cluster list. -/
theorem C8_error_handling :
    ∀ (nodes : List Node) (links links1 links2 : List Link) (l0 : Link) (th : ℚ),
      (l0.source ∉ nodes.map (·.id) ∨ l0.target ∉ nodes.map (·.id)) →
      buildComponents nodes (links1 ++ l0 :: links2) th
          = buildComponents nodes (links1 ++ links2) th
      ∧ buildComponents [] links th = []
      ∧ buildComponents nodes [] th = [] := by
  intro nodes links links1 links2 l0 th hl0
  refine ⟨?_, ?_, ?_⟩
  · have hgl : ∀ g, gLinksOf nodes (links1 ++ l0 :: links2) th g
        = gLinksOf nodes (links1 ++ links2) th g := by
      intro g
      have hpred : ((gNodesOf nodes g).contains l0.source &&
          (gNodesOf nodes g).contains l0.target && decide (th ≤ l0.w)) = false := by
        rcases hl0 with h | h
        · simp only [Bool.and_eq_false_iff]
          left
          left
          apply not_contains_of_not_mem
          intro hmem
          exact h (gNodesOf_subset_ids hmem)
        · simp only [Bool.and_eq_false_iff]
          left
          right
          apply not_contains_of_not_mem
          intro hmem
          exact h (gNodesOf_subset_ids hmem)
      simp only [gLinksOf, List.filter_append, List.filter_cons, hpred,
        Bool.false_eq_true, if_false]
    have hcomps : buildComps nodes (links1 ++ l0 :: links2) th
        = buildComps nodes (links1 ++ links2) th := by
      simp only [buildComps]
      have hgc : groupClusters nodes (links1 ++ l0 :: links2) th
          = groupClusters nodes (links1 ++ links2) th := by
        funext g
        rw [groupClusters, groupClusters, hgl g]
      rw [hgc]
    have hskip : ∀ value : String → ℚ,
        accStep (buildComps nodes (links1 ++ links2) th) value l0 = value := by
      intro value
      have hnone : compOf (buildComps nodes (links1 ++ links2) th) l0.source = none
          ∨ compOf (buildComps nodes (links1 ++ links2) th) l0.target = none := by
        rcases hl0 with h | h
        · left
          apply compOf_none
          intro c hc hmem
          obtain ⟨g, _, hcg⟩ := mem_buildComps.mp hc
          exact h (gNodesOf_subset_ids (groupClusters_subset hcg _ hmem))
        · right
          apply compOf_none
          intro c hc hmem
          obtain ⟨g, _, hcg⟩ := mem_buildComps.mp hc
          exact h (gNodesOf_subset_ids (groupClusters_subset hcg _ hmem))
      rcases hnone with h | h
      · rcases h2 : compOf (buildComps nodes (links1 ++ links2) th) l0.target
            with _ | cb <;> simp [accStep, h, h2]
      · rcases h2 : compOf (buildComps nodes (links1 ++ links2) th) l0.source
            with _ | ca <;> simp [accStep, h, h2]
    have hacc : accValues (buildComps nodes (links1 ++ links2) th)
          (links1 ++ l0 :: links2)
        = accValues (buildComps nodes (links1 ++ links2) th) (links1 ++ links2) := by
      simp only [accValues, List.foldl_append, List.foldl_cons]
      rw [hskip]
    have hbc1 : buildComponents nodes (links1 ++ l0 :: links2) th
        = ((buildComps nodes (links1 ++ l0 :: links2) th).map
            (toCluster nodes (links1 ++ l0 :: links2)
              (buildComps nodes (links1 ++ l0 :: links2) th))).filter
          (fun c => decide (0 < c.value)) := rfl
    have hbc2 : buildComponents nodes (links1 ++ links2) th
        = ((buildComps nodes (links1 ++ links2) th).map
            (toCluster nodes (links1 ++ links2)
              (buildComps nodes (links1 ++ links2) th))).filter
          (fun c => decide (0 < c.value)) := rfl
    rw [hbc1, hbc2, hcomps]
    have htc : toCluster nodes (links1 ++ l0 :: links2)
          (buildComps nodes (links1 ++ links2) th)
        = toCluster nodes (links1 ++ links2)
            (buildComps nodes (links1 ++ links2) th) := by
      funext c
      simp only [toCluster, hacc]
    rw [htc]
  · have hgc : ∀ g, groupClusters ([] : List Node) links th g = [] :=
      fun g => groupClusters_of_gNodes_nil links th rfl
    have h0 : buildComps ([] : List Node) links th = [] := by
      simp [buildComps, hgc]
    have hbc : buildComponents ([] : List Node) links th
        = ((buildComps ([] : List Node) links th).map
            (toCluster [] links (buildComps ([] : List Node) links th))).filter
          (fun c => decide (0 < c.value)) := rfl
    rw [hbc, h0]
    rfl
  · have hval : accValues (buildComps nodes [] th) [] = fun _ => 0 := rfl
    have hbc : buildComponents nodes [] th
        = ((buildComps nodes [] th).map
            (toCluster nodes [] (buildComps nodes [] th))).filter
          (fun c => decide (0 < c.value)) := rfl
    rw [hbc]
    apply List.filter_eq_nil_iff.mpr
    intro c hc
    obtain ⟨c0, _, rfl⟩ := List.mem_map.mp hc
    simp [toCluster, hval]

/-- Witness for C8: a link to the unknown node id "zz" inserted in the
middle of Scenario A's link list. -/
theorem C8_error_handling_witness :
    ((⟨"a", "zz", 1⟩ : Link).source ∉ exNodesA.map (·.id) ∨
      (⟨"a", "zz", 1⟩ : Link).target ∉ exNodesA.map (·.id)) ∧
    (buildComponents exNodesA ([⟨"a", "b", 0.8⟩] ++ (⟨"a", "zz", 1⟩ : Link)
          :: [⟨"b", "c", 0.3⟩]) (1/2)
        = buildComponents exNodesA ([⟨"a", "b", 0.8⟩] ++ [⟨"b", "c", 0.3⟩]) (1/2)
      ∧ buildComponents [] exLinksA (1/2) = []
      ∧ buildComponents exNodesA [] (1/2) = []) := by
  have h0 : (⟨"a", "zz", 1⟩ : Link).source ∉ exNodesA.map (·.id) ∨
      (⟨"a", "zz", 1⟩ : Link).target ∉ exNodesA.map (·.id) := by
    right
    decide
  exact ⟨h0, C8_error_handling exNodesA exLinksA [⟨"a", "b", 0.8⟩]
    [⟨"b", "c", 0.3⟩] ⟨"a", "zz", 1⟩ (1/2) h0⟩

/-- C9 counterexample: the save handler patches EVERY link matching the
association id either by stable id or by the source->target combo key; with
the id "a->b" naming the first link and also being the combo key of the
second, a single save mutates both links' weights, not exactly one. -/
theorem C9_counterexample :
    saveWeight exDLinks "a->b" (9/10)
      = [⟨"a->b", "x", "y", 9/10⟩, ⟨"l2", "a", "b", 9/10⟩] ∧
    (exDLinks.map (fun l => l.weight)) = [1/2, 7/10] ∧
    ((1:ℚ)/2 ≠ 9/10 ∧ (7:ℚ)/10 ≠ 9/10) := by
  exact ⟨rfl, rfl, by norm_num, by norm_num⟩

/-- C9 amended: a save with a parsed value patches the weight of exactly
the links matching the association id (by stable id or combo key), keeps
every link's id/source/target and every non-matching link intact, leaves
the node list untouched, triggers the download, and invokes the completion
callback with the new value (which re-renders at the current threshold). -/
theorem C9_weight_edit_frame :
    ∀ (d : DataState) (assocId : String) (v : ℚ),
      (saveHandler d assocId (some v)).state.dnodes = d.dnodes ∧
      (saveHandler d assocId (some v)).downloaded = true ∧
      (saveHandler d assocId (some v)).callbackVal = some v ∧
      (saveHandler d assocId (some v)).popoverOpen = false ∧
      List.Forall₂ (fun l l' : DLink =>
          l'.id = l.id ∧ l'.source = l.source ∧ l'.target = l.target ∧
            (matchesAssoc l assocId = true → l'.weight = v) ∧
            (matchesAssoc l assocId = false → l' = l))
        d.dlinks (saveHandler d assocId (some v)).state.dlinks :=
  fun d assocId v =>
    ⟨rfl, rfl, rfl, rfl, saveWeight_forall₂ d.dlinks assocId v⟩

/-- Witness for C9 on the two-match document at value 0.9. -/
theorem C9_weight_edit_frame_witness :
    (saveHandler exDState "a->b" (some (9/10))).state.dnodes = exDState.dnodes ∧
    (saveHandler exDState "a->b" (some (9/10))).downloaded = true ∧
    (saveHandler exDState "a->b" (some (9/10))).callbackVal = some (9/10) ∧
    (saveHandler exDState "a->b" (some (9/10))).popoverOpen = false ∧
    List.Forall₂ (fun l l' : DLink =>
        l'.id = l.id ∧ l'.source = l.source ∧ l'.target = l.target ∧
          (matchesAssoc l "a->b" = true → l'.weight = 9/10) ∧
          (matchesAssoc l "a->b" = false → l' = l))
      exDState.dlinks (saveHandler exDState "a->b" (some (9/10))).state.dlinks :=
  C9_weight_edit_frame exDState "a->b" (9/10)

/-- C10: a save whose input does not parse as a number (parseFloat NaN)
closes the popover and does nothing else: the document (nodes and links) is
unchanged, no download is triggered, and the completion callback is not
invoked. -/
theorem C10_nan_noop :
    ∀ (d : DataState) (assocId : String),
      saveHandler d assocId none
        = ⟨d, false, none, false⟩ ∧
      (saveHandler d assocId none).state = d ∧
      (saveHandler d assocId none).downloaded = false ∧
      (saveHandler d assocId none).callbackVal = none ∧
      (saveHandler d assocId none).popoverOpen = false :=
  fun d assocId => ⟨rfl, rfl, rfl, rfl, rfl⟩

end AssocChart
